import Mathlib

/-!
# Procrustes alignment (`include/igl/procrustes.cpp`)

A shallow embedding of the five overloads of `igl::procrustes` and the
properties of the result triple `(scale, R, t)`.

Modelling conventions

* Matrices are `Matrix (Fin n) (Fin d) K` over a linearly ordered field `K`;
  the theorems instantiate `K` with the real numbers.  The definitions are
  polymorphic in `K` and can be run over the rationals.
* The primitives the file calls but does not define are parameters:
  `sqrt` (used by `norm()`), `polar_dec` and `polar_svd` (the two polar
  decompositions, each returning the pair `(R, T)`), `atan2` (used by
  `Rotation2D::fromRotationMatrix`).
* A failed `assert` is an error value.  A floating-point division by zero
  yields an infinity or a NaN, which has no counterpart among the reals; it
  is the error `nonFinite`.
-/

namespace Procrustes

open Matrix

/-- Ways a call can end without a real-valued result: one constructor per
`assert` of the file, and `nonFinite` for a division by zero. -/
inductive ProcrustesError where
  | sameNumberOfPoints
  | sameDimensions
  | scaleAssertion
  | dimension2
  | nonFinite
  deriving DecidableEq, Repr

/-- The three outputs `scale`, `R`, `t` of the primary overload. -/
structure Result (K : Type) (d : ℕ) where
  scale : K
  R : Matrix (Fin d) (Fin d) K
  t : Fin d → K

/-- An `Eigen::Transform` of dimension `d`: a linear part and a translation
part; it acts on a column vector `x` as `linear * x + translation`. -/
structure Transform (K : Type) (d : ℕ) where
  linear : Matrix (Fin d) (Fin d) K
  translation : Fin d → K

section Definitions

variable {K : Type} [LinearOrderedField K]

/-- Floating-point division `a / b`; a zero divisor gives an infinity or a NaN. -/
def divide (a b : K) : Except ProcrustesError K :=
  if b = 0 then .error .nonFinite else .ok (a / b)

/-- The vector of column means, `(∑ i, X i j) / n`. -/
def meanVec {n d : ℕ} (X : Matrix (Fin n) (Fin d) K) : Fin d → K :=
  fun j => (∑ i, X i j) / (n : K)

/-- The call `X.colwise().mean()`: every column sum is divided by the number
of rows, so a matrix with columns and no rows divides by zero. -/
def colwiseMean {n d : ℕ} (X : Matrix (Fin n) (Fin d) K) :
    Except ProcrustesError (Fin d → K) :=
  if 0 < d ∧ n = 0 then .error .nonFinite else .ok (meanVec X)

/-- The expression `X.rowwise() - m.transpose()`. -/
def rowwiseSub {n d : ℕ} (X : Matrix (Fin n) (Fin d) K) (m : Fin d → K) :
    Matrix (Fin n) (Fin d) K :=
  Matrix.of fun i j => X i j - m j

/-- The call `X.norm()`: the square root of the sum of the squared entries. -/
def norm {n d : ℕ} (sqrt : K → K) (X : Matrix (Fin n) (Fin d) K) : K :=
  sqrt (∑ i, ∑ j, X i j * X i j)

/-- The update `X *= s` by a scalar. -/
def mulScalar {n d : ℕ} (X : Matrix (Fin n) (Fin d) K) (s : K) :
    Matrix (Fin n) (Fin d) K :=
  Matrix.of fun i j => X i j * s

/-- Lines 32 to 41: the scale and the (possibly rescaled) centred source. -/
def scaleStep {n d : ℕ} (sqrt : K → K) (XC YC : Matrix (Fin n) (Fin d) K)
    (includeScaling : Bool) :
    Except ProcrustesError (K × Matrix (Fin n) (Fin d) K) :=
  if includeScaling then do
    let scaleX ← divide (norm sqrt XC) (n : K)
    let scaleY ← divide (norm sqrt YC) (n : K)
    let scale ← divide scaleY scaleX
    let XCs := mulScalar XC scale
    let check ← divide (norm sqrt XCs) (n : K)
    if |check - scaleY| < 1 / 10 ^ 8 then pure (scale, XCs)
    else throw .scaleAssertion
  else pure (1, XC)

/-- The primary overload, lines 12 to 54. -/
def procrustes {n d m e : ℕ} (sqrt : K → K)
    (polar_dec polar_svd :
      Matrix (Fin d) (Fin d) K → Matrix (Fin d) (Fin d) K × Matrix (Fin d) (Fin d) K)
    (X : Matrix (Fin n) (Fin d) K) (Y : Matrix (Fin m) (Fin e) K)
    (includeScaling includeReflections : Bool) :
    Except ProcrustesError (Result K d) :=
  if hr : n = m then
    if hc : d = e then do
      let Y1 : Matrix (Fin n) (Fin d) K := Y.submatrix (Fin.cast hr) (Fin.cast hc)
      -- Center data
      let Xmean ← colwiseMean X
      let Ymean ← colwiseMean Y1
      let XC := rowwiseSub X Xmean
      let YC := rowwiseSub Y1 Ymean
      -- Scale
      let (scale, XCs) ← scaleStep sqrt XC YC includeScaling
      -- Rotation
      let S := XCsᵀ * YC
      let RT := if includeReflections then polar_dec S else polar_svd S
      let R := RT.1ᵀ
      -- Translation
      let t := Ymean - (scale • Rᵀ) *ᵥ Xmean
      pure ⟨scale, R, t⟩
    else throw .sameDimensions
  else throw .sameNumberOfPoints

/-- The overload of lines 56 to 68: the rotation multiplied by the scale. -/
def procrustesScaledRotation {n d m e : ℕ} (sqrt : K → K)
    (polar_dec polar_svd :
      Matrix (Fin d) (Fin d) K → Matrix (Fin d) (Fin d) K × Matrix (Fin d) (Fin d) K)
    (X : Matrix (Fin n) (Fin d) K) (Y : Matrix (Fin m) (Fin e) K)
    (includeScaling includeReflections : Bool) :
    Except ProcrustesError (Matrix (Fin d) (Fin d) K × (Fin d → K)) := do
  let r ← procrustes sqrt polar_dec polar_svd X Y includeScaling includeReflections
  pure (mulScalar r.R r.scale, r.t)

/-- The transform `Translation(t)`. -/
def Transform.ofTranslation {d : ℕ} (t : Fin d → K) : Transform K d :=
  ⟨1, t⟩

/-- The product of a transform with a `d × d` matrix on its right. -/
def Transform.mulLinear {d : ℕ} (T : Transform K d) (R : Matrix (Fin d) (Fin d) K) :
    Transform K d :=
  ⟨T.linear * R, T.translation⟩

/-- The product of a transform with `Scaling(s)` on its right. -/
def Transform.mulScaling {d : ℕ} (T : Transform K d) (s : K) : Transform K d :=
  ⟨mulScalar T.linear s, T.translation⟩

/-- The image `T * x` of a column vector. -/
def Transform.apply {d : ℕ} (T : Transform K d) (x : Fin d → K) : Fin d → K :=
  T.linear *ᵥ x + T.translation

/-- The overload of lines 71 to 86, for a transform of the dimension of the
points: `T = Translation(t) * R * Scaling(scale)`. -/
def procrustesTransform {n d m e : ℕ} (sqrt : K → K)
    (polar_dec polar_svd :
      Matrix (Fin d) (Fin d) K → Matrix (Fin d) (Fin d) K × Matrix (Fin d) (Fin d) K)
    (X : Matrix (Fin n) (Fin d) K) (Y : Matrix (Fin m) (Fin e) K)
    (includeScaling includeReflections : Bool) :
    Except ProcrustesError (Transform K d) := do
  let r ← procrustes sqrt polar_dec polar_svd X Y includeScaling includeReflections
  pure (((Transform.ofTranslation r.t).mulLinear r.R).mulScaling r.scale)

/-- The overload of lines 88 to 97: both flags false, through the
scaled-rotation overload. -/
def procrustesRigid {n d m e : ℕ} (sqrt : K → K)
    (polar_dec polar_svd :
      Matrix (Fin d) (Fin d) K → Matrix (Fin d) (Fin d) K × Matrix (Fin d) (Fin d) K)
    (X : Matrix (Fin n) (Fin d) K) (Y : Matrix (Fin m) (Fin e) K) :
    Except ProcrustesError (Matrix (Fin d) (Fin d) K × (Fin d → K)) :=
  procrustesScaledRotation sqrt polar_dec polar_svd X Y false false

/-- The call `Rotation2D::fromRotationMatrix`: the angle `atan2 (m 1 0) (m 0 0)`. -/
def fromRotationMatrix {d : ℕ} (atan2 : K → K → K) (h : d = 2)
    (Rmat : Matrix (Fin d) (Fin d) K) : K :=
  atan2 (Rmat ⟨1, by omega⟩ ⟨0, by omega⟩) (Rmat ⟨0, by omega⟩ ⟨0, by omega⟩)

/-- The overload of lines 99 to 110, returning the rotation as an angle. -/
def procrustesRotation2D {n d m e : ℕ} (sqrt : K → K)
    (polar_dec polar_svd :
      Matrix (Fin d) (Fin d) K → Matrix (Fin d) (Fin d) K × Matrix (Fin d) (Fin d) K)
    (atan2 : K → K → K)
    (X : Matrix (Fin n) (Fin d) K) (Y : Matrix (Fin m) (Fin e) K) :
    Except ProcrustesError (K × (Fin d → K)) :=
  if h : d = 2 ∧ e = 2 then do
    let Rt ← procrustesScaledRotation sqrt polar_dec polar_svd X Y false false
    pure (fromRotationMatrix atan2 h.1 Rt.1, Rt.2)
  else throw .dimension2

end Definitions

/-! ## Closed forms of the intermediate values -/

section ClosedForms

variable {K : Type} [LinearOrderedField K]

/-- The centred point set `X.rowwise() - Xmean.transpose()`. -/
def centred {n d : ℕ} (X : Matrix (Fin n) (Fin d) K) : Matrix (Fin n) (Fin d) K :=
  rowwiseSub X (meanVec X)

/-- The quotient `scaleY / scaleX` of line 38. -/
def scaleRatio {n d : ℕ} (sqrt : K → K) (XC YC : Matrix (Fin n) (Fin d) K) : K :=
  (norm sqrt YC / (n : K)) / (norm sqrt XC / (n : K))

/-- The scale the primary overload returns. -/
def scaleOf {n d : ℕ} (sqrt : K → K) (X Y : Matrix (Fin n) (Fin d) K) (includeScaling : Bool) :
    K :=
  if includeScaling then scaleRatio sqrt (centred X) (centred Y) else 1

/-- The centred source as it enters the cross-covariance of line 44. -/
def sourceOf {n d : ℕ} (sqrt : K → K) (X Y : Matrix (Fin n) (Fin d) K) (includeScaling : Bool) :
    Matrix (Fin n) (Fin d) K :=
  if includeScaling then mulScalar (centred X) (scaleRatio sqrt (centred X) (centred Y))
  else centred X

/-- The matrix `S` of line 44. -/
def crossCovariance {n d : ℕ} (sqrt : K → K) (X Y : Matrix (Fin n) (Fin d) K)
    (includeScaling : Bool) : Matrix (Fin d) (Fin d) K :=
  (sourceOf sqrt X Y includeScaling)ᵀ * centred Y

/-- The orthogonal factor the selected polar primitive returns for `S`. -/
def polarFactor {n d : ℕ} (sqrt : K → K)
    (polar_dec polar_svd :
      Matrix (Fin d) (Fin d) K → Matrix (Fin d) (Fin d) K × Matrix (Fin d) (Fin d) K)
    (X Y : Matrix (Fin n) (Fin d) K) (includeScaling includeReflections : Bool) :
    Matrix (Fin d) (Fin d) K :=
  (if includeReflections then polar_dec (crossCovariance sqrt X Y includeScaling)
   else polar_svd (crossCovariance sqrt X Y includeScaling)).1

/-- The symmetric factor the selected polar primitive returns for `S`. -/
def polarStretch {n d : ℕ} (sqrt : K → K)
    (polar_dec polar_svd :
      Matrix (Fin d) (Fin d) K → Matrix (Fin d) (Fin d) K × Matrix (Fin d) (Fin d) K)
    (X Y : Matrix (Fin n) (Fin d) K) (includeScaling includeReflections : Bool) :
    Matrix (Fin d) (Fin d) K :=
  (if includeReflections then polar_dec (crossCovariance sqrt X Y includeScaling)
   else polar_svd (crossCovariance sqrt X Y includeScaling)).2

end ClosedForms

/-! ## Concrete point sets and primitives used to instantiate the theorems -/

section Examples

variable (K : Type) [LinearOrderedField K]

/-- A triangle in the plane, with centroid `(1, 1)`. -/
def triangleX : Matrix (Fin 3) (Fin 2) K := !![0, 0; 2, 0; 1, 3]

/-- The quarter turn about the origin, `(x, y) ↦ (-y, x)`. -/
def rot90 : Matrix (Fin 2) (Fin 2) K := !![0, -1; 1, 0]

/-- The inverse quarter turn, the transpose of `rot90`. -/
def rot270 : Matrix (Fin 2) (Fin 2) K := !![0, 1; -1, 0]

/-- The triangle `triangleX` after the quarter turn `rot90`, with centroid
`(-1, 1)`. -/
def triangleY : Matrix (Fin 3) (Fin 2) K := !![0, 0; 0, 2; -3, 1]

/-- Four points in space, for the calls with 3-dimensional input. -/
def tetraX : Matrix (Fin 4) (Fin 3) K := !![0, 0, 0; 1, 0, 0; 0, 1, 0; 0, 0, 1]

/-- Two points on the first axis. -/
def segmentX : Matrix (Fin 2) (Fin 2) K := !![0, 0; 2, 0]

/-- The reflection in the first axis, `(x, y) ↦ (x, -y)`. -/
def reflectX : Matrix (Fin 2) (Fin 2) K := !![1, 0; 0, -1]

/-- The mirror image of `triangleX` in the first axis. -/
def triangleMirror : Matrix (Fin 3) (Fin 2) K := !![0, 0; 2, 0; 1, -3]

/-- Two points on the first axis of space. -/
def segmentX3 : Matrix (Fin 2) (Fin 3) K := !![0, 0, 0; 2, 0, 0]

/-- The half turn of space about the first axis, `(x, y, z) ↦ (x, -y, -z)`. -/
def halfTurnX : Matrix (Fin 3) (Fin 3) K := Matrix.diagonal ![1, -1, -1]

/-- Three points of the first axis with centroid at the origin. -/
def lineX : Matrix (Fin 3) (Fin 2) K := !![1, 0; -1, 0; 0, 0]

/-- The points of `lineX` in another order: no similarity maps `lineX` onto
them point by point. -/
def lineY : Matrix (Fin 3) (Fin 2) K := !![0, 0; 1, 0; -1, 0]

variable {K}

/-- A polar primitive that answers every `S` with the orthogonal factor `Q`
and the second factor `Qᵀ * S`, so that `Q * (Qᵀ * S) = S` when `Q` is
orthogonal. -/
def polarWith {d : ℕ} (Q : Matrix (Fin d) (Fin d) K) :
    Matrix (Fin d) (Fin d) K → Matrix (Fin d) (Fin d) K × Matrix (Fin d) (Fin d) K :=
  fun S => (Q, Qᵀ * S)

end Examples

/-! ## The least-squares objective -/

/-- The sum over the points of the squared distance
`‖s * R * x_i + t - y_i‖²`, the quantity of the spec's purpose statement. -/
def residual {K : Type} [LinearOrderedField K] {n d : ℕ} (s : K)
    (R : Matrix (Fin d) (Fin d) K) (t : Fin d → K) (X Y : Matrix (Fin n) (Fin d) K) : K :=
  ∑ i, ∑ j, (((s • R) *ᵥ X i + t - Y i) j) ^ 2

/-! ## The contract of the polar primitives -/

/-- Modelled from the spec: the contract of the polar primitives `polar_dec`
and `polar_svd`, whose source is not part of the file.  For the input `S`
they return an orthogonal `R` and a symmetric positive semidefinite `T` with
`S = R * T`. -/
def IsPolarDecomposition {d : ℕ} (S R T : Matrix (Fin d) (Fin d) ℝ) : Prop :=
  S = R * T ∧ R * Rᵀ = 1 ∧ T.PosSemidef

/-- Modelled from the spec: the contract of `polar_svd`, whose source is not
part of the file.  From a singular value decomposition `S = U * diag σ * Vᵀ`
it returns `R = U * Vᵀ` when that factor has determinant `+1`; otherwise it
flips the sign of a smallest singular direction, `R = U * diag D * Vᵀ` with
`D` equal to `1` except for one `-1` at an index of smallest `σ`.  The second
factor is `T = V * diag (D * σ) * Vᵀ`, so that `S = R * T`. -/
def IsPolarSvd {d : ℕ} (S R T : Matrix (Fin d) (Fin d) ℝ) : Prop :=
  ∃ (U V : Matrix (Fin d) (Fin d) ℝ) (σ D : Fin d → ℝ),
    U * Uᵀ = 1 ∧ V * Vᵀ = 1 ∧ (∀ i, 0 ≤ σ i) ∧ S = U * Matrix.diagonal σ * Vᵀ ∧
    (((U * Vᵀ).det = 1 ∧ D = 1) ∨
      ((U * Vᵀ).det = -1 ∧ ∃ k, (∀ j, σ k ≤ σ j) ∧ D = Function.update (1 : Fin d → ℝ) k (-1))) ∧
    R = U * Matrix.diagonal D * Vᵀ ∧ T = V * Matrix.diagonal (D * σ) * Vᵀ

/-! ## The norm over the reals -/

section RealNorm

variable {n d : ℕ}

theorem sumSq_nonneg (X : Matrix (Fin n) (Fin d) ℝ) : 0 ≤ ∑ i, ∑ j, X i j * X i j :=
  Finset.sum_nonneg fun i _ => Finset.sum_nonneg fun j _ => mul_self_nonneg (X i j)

theorem norm_nonneg (X : Matrix (Fin n) (Fin d) ℝ) : 0 ≤ norm Real.sqrt X :=
  Real.sqrt_nonneg _

theorem norm_eq_zero_iff (X : Matrix (Fin n) (Fin d) ℝ) : norm Real.sqrt X = 0 ↔ X = 0 := by
  unfold norm
  rw [Real.sqrt_eq_zero (sumSq_nonneg X)]
  constructor
  · intro h
    rw [Finset.sum_eq_zero_iff_of_nonneg
      (fun i _ => Finset.sum_nonneg fun j _ => mul_self_nonneg (X i j))] at h
    ext i j
    have hi := h i (Finset.mem_univ i)
    rw [Finset.sum_eq_zero_iff_of_nonneg (fun j _ => mul_self_nonneg (X i j))] at hi
    simpa using hi j (Finset.mem_univ j)
  · rintro rfl
    simp

theorem norm_mulScalar (X : Matrix (Fin n) (Fin d) ℝ) {s : ℝ} (hs : 0 ≤ s) :
    norm Real.sqrt (mulScalar X s) = s * norm Real.sqrt X := by
  unfold norm mulScalar
  have h : (∑ i, ∑ j, (Matrix.of fun i j => X i j * s) i j * (Matrix.of fun i j => X i j * s) i j)
      = s * s * ∑ i, ∑ j, X i j * X i j := by
    simp only [Matrix.of_apply, Finset.mul_sum]
    refine Finset.sum_congr rfl fun i _ => Finset.sum_congr rfl fun j _ => ?_
    ring
  rw [h, Real.sqrt_mul (mul_self_nonneg s), Real.sqrt_mul_self hs]

theorem scaleRatio_nonneg (XC YC : Matrix (Fin n) (Fin d) ℝ) :
    0 ≤ scaleRatio Real.sqrt XC YC := by
  unfold scaleRatio
  have h1 := norm_nonneg XC
  have h2 := norm_nonneg YC
  positivity

theorem scaleRatio_mul_norm (XC YC : Matrix (Fin n) (Fin d) ℝ) (hn : 0 < n) (hX : XC ≠ 0) :
    scaleRatio Real.sqrt XC YC * norm Real.sqrt XC = norm Real.sqrt YC := by
  have hx : norm Real.sqrt XC ≠ 0 := fun h => hX ((norm_eq_zero_iff XC).1 h)
  have hn0 : (n : ℝ) ≠ 0 := Nat.cast_ne_zero.2 hn.ne.symm
  unfold scaleRatio
  field_simp

/-- With a non-degenerate centred source the scaling branch passes its
assertion and returns the quotient of the two average norms. -/
theorem scaleStep_true (XC YC : Matrix (Fin n) (Fin d) ℝ) (hn : 0 < n) (hX : XC ≠ 0) :
    scaleStep Real.sqrt XC YC true
      = .ok (scaleRatio Real.sqrt XC YC, mulScalar XC (scaleRatio Real.sqrt XC YC)) := by
  have hx : norm Real.sqrt XC ≠ 0 := fun h => hX ((norm_eq_zero_iff XC).1 h)
  have hn0 : (n : ℝ) ≠ 0 := Nat.cast_ne_zero.2 hn.ne.symm
  have hsx : norm Real.sqrt XC / (n : ℝ) ≠ 0 := div_ne_zero hx hn0
  have hchk : norm Real.sqrt (mulScalar XC (scaleRatio Real.sqrt XC YC)) / (n : ℝ)
      - norm Real.sqrt YC / (n : ℝ) = 0 := by
    rw [norm_mulScalar XC (scaleRatio_nonneg XC YC), scaleRatio_mul_norm XC YC hn hX, sub_self]
  simp only [scaleStep, divide, hn0, hsx, if_false, if_true, bind, Except.bind, pure, Except.pure]
  rw [show (norm Real.sqrt YC / (n : ℝ)) / (norm Real.sqrt XC / (n : ℝ))
      = scaleRatio Real.sqrt XC YC from rfl, hchk]
  norm_num

theorem scaleStep_false (sqrt : ℝ → ℝ) (XC YC : Matrix (Fin n) (Fin d) ℝ) :
    scaleStep sqrt XC YC false = .ok (1, XC) := rfl

end RealNorm

/-! ## The primary overload on two point sets of one shape -/

section SameShape

variable {n d : ℕ}

theorem colwiseMean_ok {K : Type} [LinearOrderedField K] (X : Matrix (Fin n) (Fin d) K)
    (hn : 0 < n) : colwiseMean X = .ok (meanVec X) := by
  simp [colwiseMean, hn.ne.symm]

/-- The value of the primary overload on point sets of one shape with at
least one point and, when scaling is requested, a centred source that is
not zero. -/
theorem procrustes_eq
    (polar_dec polar_svd :
      Matrix (Fin d) (Fin d) ℝ → Matrix (Fin d) (Fin d) ℝ × Matrix (Fin d) (Fin d) ℝ)
    (X Y : Matrix (Fin n) (Fin d) ℝ) (sc rf : Bool) (hn : 0 < n)
    (hX : sc = true → centred X ≠ 0) :
    procrustes Real.sqrt polar_dec polar_svd X Y sc rf
      = .ok ⟨scaleOf Real.sqrt X Y sc,
          (polarFactor Real.sqrt polar_dec polar_svd X Y sc rf)ᵀ,
          meanVec Y - (scaleOf Real.sqrt X Y sc
            • ((polarFactor Real.sqrt polar_dec polar_svd X Y sc rf)ᵀ)ᵀ) *ᵥ meanVec X⟩ := by
  have hY : Y.submatrix (Fin.cast (rfl : n = n)) (Fin.cast (rfl : d = d)) = Y := by
    ext i j; rfl
  cases sc
  · simp only [procrustes, dif_pos, hY, colwiseMean_ok X hn, colwiseMean_ok Y hn,
      scaleStep_false, bind, Except.bind, pure, Except.pure]
    cases rf <;> rfl
  · have h := scaleStep_true (centred X) (centred Y) hn (hX rfl)
    unfold centred at h
    simp only [procrustes, dif_pos, hY, colwiseMean_ok X hn, colwiseMean_ok Y hn,
      h, bind, Except.bind, pure, Except.pure]
    cases rf <;> rfl

/-- Every result of the primary overload is assembled from the outcome of
the scale step and the factor of the selected polar primitive. -/
theorem procrustes_ok_inv {K : Type} [LinearOrderedField K] (sqrt : K → K)
    (polar_dec polar_svd :
      Matrix (Fin d) (Fin d) K → Matrix (Fin d) (Fin d) K × Matrix (Fin d) (Fin d) K)
    (X Y : Matrix (Fin n) (Fin d) K) (sc rf : Bool) (r : Result K d)
    (h : procrustes sqrt polar_dec polar_svd X Y sc rf = .ok r) :
    ∃ s XCs, scaleStep sqrt (centred X) (centred Y) sc = .ok (s, XCs) ∧
      r = ⟨s, ((if rf then polar_dec (XCsᵀ * centred Y)
                else polar_svd (XCsᵀ * centred Y)).1)ᵀ,
            meanVec Y - (s • (((if rf then polar_dec (XCsᵀ * centred Y)
                else polar_svd (XCsᵀ * centred Y)).1)ᵀ)ᵀ) *ᵥ meanVec X⟩ := by
  have hY : Y.submatrix (Fin.cast (rfl : n = n)) (Fin.cast (rfl : d = d)) = Y := by
    ext i j; rfl
  by_cases hz : 0 < d ∧ n = 0
  · simp [procrustes, colwiseMean, hz, bind, Except.bind] at h
  · have hmX : colwiseMean X = .ok (meanVec X) := by simp only [colwiseMean, hz, if_false]
    have hmY : colwiseMean Y = .ok (meanVec Y) := by simp only [colwiseMean, hz, if_false]
    simp only [procrustes, dif_pos, hY, hmX, hmY, bind, Except.bind] at h
    unfold centred
    cases hs : scaleStep sqrt (rowwiseSub X (meanVec X)) (rowwiseSub Y (meanVec Y)) sc with
    | error err => rw [hs] at h; cases h
    | ok p =>
      obtain ⟨s, XCs⟩ := p
      rw [hs] at h
      refine ⟨s, XCs, rfl, ?_⟩
      simp only [pure, Except.pure] at h
      cases rf <;> exact (Except.ok.inj h).symm

theorem procrustes_false_eq {K : Type} [LinearOrderedField K] (sqrt : K → K)
    (polar_dec polar_svd :
      Matrix (Fin d) (Fin d) K → Matrix (Fin d) (Fin d) K × Matrix (Fin d) (Fin d) K)
    (X Y : Matrix (Fin n) (Fin d) K) (rf : Bool) (hn : 0 < n) :
    procrustes sqrt polar_dec polar_svd X Y false rf
      = .ok ⟨1, ((if rf then polar_dec ((centred X)ᵀ * centred Y)
                else polar_svd ((centred X)ᵀ * centred Y)).1)ᵀ,
            meanVec Y - ((1 : K) • (((if rf then polar_dec ((centred X)ᵀ * centred Y)
                else polar_svd ((centred X)ᵀ * centred Y)).1)ᵀ)ᵀ) *ᵥ meanVec X⟩ := by
  have hY : Y.submatrix (Fin.cast (rfl : n = n)) (Fin.cast (rfl : d = d)) = Y := by
    ext i j; rfl
  simp only [procrustes, dif_pos, hY, colwiseMean_ok X hn, colwiseMean_ok Y hn,
    scaleStep, bind, Except.bind, pure, Except.pure]
  cases rf <;> rfl

theorem mulScalar_eq_smul {K : Type} [LinearOrderedField K] {a b : ℕ}
    (M : Matrix (Fin a) (Fin b) K) (s : K) : mulScalar M s = s • M := by
  ext i j
  simp [mulScalar, mul_comm]

end SameShape

/-! ## Polar decompositions of a positive definite matrix -/

section Polar

variable {n d : ℕ}

theorem transpose_eq_of_posSemidef {T : Matrix (Fin d) (Fin d) ℝ} (hT : T.PosSemidef) :
    Tᵀ = T := by
  have h := hT.1
  rwa [IsHermitian, conjTranspose_eq_transpose_of_trivial] at h

/-- The Gram matrix of a matrix with independent columns is positive definite. -/
theorem posDef_gram (A : Matrix (Fin n) (Fin d) ℝ) (h : ∀ v, A *ᵥ v = 0 → v = 0) :
    (Aᵀ * A).PosDef := by
  refine ⟨isHermitian_transpose_mul_self A, fun x hx => ?_⟩
  have hAx : A *ᵥ x ≠ 0 := fun h0 => hx (h x h0)
  have h1 : star x ⬝ᵥ (Aᵀ * A) *ᵥ x = (A *ᵥ x) ⬝ᵥ (A *ᵥ x) := by
    rw [← mulVec_mulVec, dotProduct_mulVec, vecMul_transpose, star_trivial]
  rw [h1]
  have h2 : 0 ≤ (A *ᵥ x) ⬝ᵥ (A *ᵥ x) :=
    Finset.sum_nonneg fun i _ => mul_self_nonneg _
  exact lt_of_le_of_ne h2 fun h3 => hAx (dotProduct_self_eq_zero.1 h3.symm)

/-- A positive definite `M` has one polar decomposition only: if `M = U * T`
with `U` orthogonal and `T` positive semidefinite then `U = 1`. -/
theorem orthogonal_eq_one_of_polar {M U T : Matrix (Fin d) (Fin d) ℝ} (hM : M.PosDef)
    (hU : U * Uᵀ = 1) (hT : T.PosSemidef) (h : M = U * T) : U = 1 := by
  have hU2 : Uᵀ * U = 1 := mul_eq_one_comm.1 hU
  have hTM : T = Uᵀ * M := by rw [h, ← Matrix.mul_assoc, hU2, Matrix.one_mul]
  have hTt : Tᵀ = T := transpose_eq_of_posSemidef hT
  have hMt : Mᵀ = M := transpose_eq_of_posSemidef hM.posSemidef
  have hsq : T ^ 2 = M ^ 2 := by
    rw [pow_two, pow_two]
    nth_rewrite 1 [← hTt]
    rw [hTM, transpose_mul, transpose_transpose, hMt, Matrix.mul_assoc, ← Matrix.mul_assoc U,
      hU, Matrix.one_mul]
  have hTeq : T = M := hT.eq_of_sq_eq_sq hM.posSemidef hsq
  have hdet : IsUnit M.det := hM.det_pos.ne'.isUnit
  have hUM : U * M = M := by
    have h2 := h
    rw [hTeq] at h2
    exact h2.symm
  calc U = U * M * M⁻¹ := (Matrix.mul_nonsing_inv_cancel_right _ _ hdet).symm
    _ = M * M⁻¹ := by rw [hUM]
    _ = 1 := Matrix.mul_nonsing_inv _ hdet

theorem trace_transpose_mul_self_nonneg (B : Matrix (Fin n) (Fin d) ℝ) :
    0 ≤ trace (Bᵀ * B) := by
  simp only [trace, diag_apply, Matrix.mul_apply, Matrix.transpose_apply]
  exact Finset.sum_nonneg fun j _ => Finset.sum_nonneg fun i _ => mul_self_nonneg _

theorem trace_nonneg_of_posSemidef {P : Matrix (Fin d) (Fin d) ℝ} (hP : P.PosSemidef) :
    0 ≤ trace P := by
  obtain ⟨B, rfl⟩ := posSemidef_iff_eq_transpose_mul_self.1 hP
  rw [conjTranspose_eq_transpose_of_trivial]
  exact trace_transpose_mul_self_nonneg B

/-- An orthogonal factor cannot raise the trace of a positive semidefinite
matrix: `2 * (tr T - tr (U * T))` is the trace of `(1 - U) * T * (1 - U)ᵀ`. -/
theorem trace_orthogonal_mul_le {U T : Matrix (Fin d) (Fin d) ℝ} (hU : Uᵀ * U = 1)
    (hT : T.PosSemidef) : trace (U * T) ≤ trace T := by
  have hTt : Tᵀ = T := transpose_eq_of_posSemidef hT
  have hP : 0 ≤ trace ((1 - U) * T * (1 - U)ᴴ) :=
    trace_nonneg_of_posSemidef (hT.mul_mul_conjTranspose_same (1 - U))
  have h1 : trace (T * Uᵀ) = trace (U * T) := by
    rw [← trace_transpose, transpose_mul, transpose_transpose, hTt]
  have h2 : trace (U * T * Uᵀ) = trace T := by
    rw [trace_mul_comm, ← Matrix.mul_assoc, hU, Matrix.one_mul]
  have h3 : (1 - U) * T * (1 - U)ᴴ = T - T * Uᵀ - (U * T - U * T * Uᵀ) := by
    rw [conjTranspose_eq_transpose_of_trivial, transpose_sub, transpose_one]
    simp only [Matrix.sub_mul, Matrix.mul_sub, Matrix.one_mul, Matrix.mul_one]
    abel
  rw [h3, trace_sub, trace_sub, trace_sub, h1, h2] at hP
  linarith

theorem residual_zero_eq_trace (s : ℝ) (Q : Matrix (Fin d) (Fin d) ℝ)
    (A B : Matrix (Fin n) (Fin d) ℝ) :
    residual s Q 0 A B = trace (((s • A) * Qᵀ - B)ᵀ * ((s • A) * Qᵀ - B)) := by
  simp only [residual, trace, diag_apply, Matrix.mul_apply, Matrix.transpose_apply]
  rw [Finset.sum_comm]
  refine Finset.sum_congr rfl fun j _ => Finset.sum_congr rfl fun i _ => ?_
  have h : ((s • Q) *ᵥ A i + 0 - B i) j = ((s • A) * Qᵀ - B) i j := by
    simp only [Matrix.mulVec, Matrix.dotProduct, Matrix.sub_apply, Matrix.mul_apply,
      Matrix.transpose_apply, Matrix.smul_apply, Pi.add_apply, Pi.sub_apply, Pi.zero_apply,
      add_zero, smul_eq_mul]
    congr 1
    refine Finset.sum_congr rfl fun k _ => ?_
    ring
  rw [h, pow_two]

/-- For an orthogonal `Q` the centred objective is
`‖s * A‖² - 2 * tr (Q * S) + ‖B‖²` with `S = (s * A)ᵀ * B`. -/
theorem residual_zero_expand (s : ℝ) (Q : Matrix (Fin d) (Fin d) ℝ)
    (A B : Matrix (Fin n) (Fin d) ℝ) (hQ : Qᵀ * Q = 1) :
    residual s Q 0 A B
      = trace ((s • A)ᵀ * (s • A)) - 2 * trace (Q * ((s • A)ᵀ * B)) + trace (Bᵀ * B) := by
  rw [residual_zero_eq_trace]
  have h1 : trace (Q * (s • A)ᵀ * ((s • A) * Qᵀ)) = trace ((s • A)ᵀ * (s • A)) := by
    rw [Matrix.mul_assoc, trace_mul_comm, Matrix.mul_assoc, Matrix.mul_assoc, hQ, Matrix.mul_one]
  have h2 : trace (Bᵀ * ((s • A) * Qᵀ)) = trace (Q * ((s • A)ᵀ * B)) := by
    rw [← trace_transpose, transpose_mul, transpose_mul, transpose_transpose,
      transpose_transpose, Matrix.mul_assoc]
  rw [transpose_sub, transpose_mul, transpose_transpose]
  simp only [Matrix.sub_mul, Matrix.mul_sub, trace_sub]
  rw [h1, h2, Matrix.mul_assoc Q]
  ring

/-- The transposed orthogonal factor of a polar decomposition of
`S = (s * A)ᵀ * B` minimises the centred objective over the orthogonal
matrices. -/
theorem residual_polar_le (s : ℝ) (F T Q : Matrix (Fin d) (Fin d) ℝ)
    (A B : Matrix (Fin n) (Fin d) ℝ)
    (hpolar : IsPolarDecomposition ((s • A)ᵀ * B) F T) (hQ : Q * Qᵀ = 1) :
    residual s Fᵀ 0 A B ≤ residual s Q 0 A B := by
  obtain ⟨hS, hF, hT⟩ := hpolar
  have hF2 : Fᵀ * F = 1 := mul_eq_one_comm.1 hF
  have hQ2 : Qᵀ * Q = 1 := mul_eq_one_comm.1 hQ
  have hFt : (Fᵀ)ᵀ * Fᵀ = 1 := by rw [transpose_transpose]; exact hF
  rw [residual_zero_expand s Fᵀ A B hFt, residual_zero_expand s Q A B hQ2, hS]
  have h1 : Fᵀ * (F * T) = T := by rw [← Matrix.mul_assoc, hF2, Matrix.one_mul]
  have hU : (Q * F)ᵀ * (Q * F) = 1 := by
    rw [transpose_mul, Matrix.mul_assoc, ← Matrix.mul_assoc Qᵀ, hQ2, Matrix.one_mul, hF2]
  have h2 : trace (Q * (F * T)) ≤ trace T := by
    rw [← Matrix.mul_assoc]
    exact trace_orthogonal_mul_le hU hT
  rw [h1]
  linarith

end Polar

/-! ## Orthogonal matrices of determinant -1 -/

section Improper

variable {n d : ℕ}

/-- An orthogonal matrix of determinant `-1` has the eigenvalue `-1`. -/
theorem det_one_add_eq_zero {W : Matrix (Fin d) (Fin d) ℝ} (hW : W * Wᵀ = 1)
    (hdet : W.det = -1) : (1 + W).det = 0 := by
  have h : 1 + W = W * (1 + W)ᵀ := by
    rw [transpose_add, transpose_one, Matrix.mul_add, Matrix.mul_one, hW, add_comm]
  have h2 : (1 + W).det = -(1 + W).det := by
    calc (1 + W).det = (W * (1 + W)ᵀ).det := congrArg det h
      _ = -(1 + W).det := by rw [det_mul, det_transpose, hdet, neg_one_mul]
  linarith

/-- The matrix `(x ⬝ x) • 1 - x xᵀ` is positive semidefinite (Cauchy-Schwarz). -/
theorem posSemidef_smul_one_sub_vecMulVec (x : Fin d → ℝ) :
    ((x ⬝ᵥ x) • (1 : Matrix (Fin d) (Fin d) ℝ) - vecMulVec x x).PosSemidef := by
  refine ⟨?_, fun v => ?_⟩
  · rw [IsHermitian, conjTranspose_eq_transpose_of_trivial]
    ext i j
    simp [vecMulVec_apply, Matrix.one_apply, mul_comm, eq_comm]
  · have hq : star v ⬝ᵥ ((x ⬝ᵥ x) • (1 : Matrix (Fin d) (Fin d) ℝ) - vecMulVec x x) *ᵥ v
        = (x ⬝ᵥ x) * (v ⬝ᵥ v) - (x ⬝ᵥ v) ^ 2 := by
      rw [star_trivial, sub_mulVec, smul_mulVec_assoc, one_mulVec, dotProduct_sub,
        dotProduct_smul, smul_eq_mul]
      congr 1
      simp only [dotProduct, mulVec, vecMulVec_apply, pow_two, Finset.mul_sum, Finset.sum_mul]
      refine Finset.sum_congr rfl fun i _ => Finset.sum_congr rfl fun j _ => ?_
      ring
    rw [hq]
    have hcs := Finset.sum_mul_sq_le_sq_mul_sq Finset.univ x v
    simp only [dotProduct, ← pow_two]
    linarith

theorem trace_le_of_det_neg_one {W : Matrix (Fin d) (Fin d) ℝ} (hW : W * Wᵀ = 1)
    (hdet : W.det = -1) : trace W ≤ (d : ℝ) - 2 := by
  obtain ⟨x, hx0, hx⟩ := exists_mulVec_eq_zero_iff.2 (det_one_add_eq_zero hW hdet)
  have hWx : W *ᵥ x = -x := by
    rw [add_mulVec, one_mulVec] at hx
    exact (neg_eq_of_add_eq_zero_right hx).symm
  have hxx : 0 < x ⬝ᵥ x := by
    have h0 : 0 ≤ x ⬝ᵥ x := Finset.sum_nonneg fun i _ => mul_self_nonneg _
    exact lt_of_le_of_ne h0 fun h => hx0 (dotProduct_self_eq_zero.1 h.symm)
  have h := trace_orthogonal_mul_le (mul_eq_one_comm.1 hW)
    (posSemidef_smul_one_sub_vecMulVec x)
  have h1 : trace (W * vecMulVec x x) = (W *ᵥ x) ⬝ᵥ x := by
    simp only [trace, diag_apply, Matrix.mul_apply, vecMulVec_apply, dotProduct, mulVec,
      Finset.sum_mul]
    refine Finset.sum_congr rfl fun i _ => Finset.sum_congr rfl fun j _ => ?_
    ring
  have h2 : trace (vecMulVec x x) = x ⬝ᵥ x := by
    simp only [trace, diag_apply, vecMulVec_apply, dotProduct]
  rw [Matrix.mul_sub, trace_sub, trace_sub, Matrix.mul_smul, Matrix.mul_one, trace_smul,
    trace_smul, h1, h2, hWx, trace_one, neg_dotProduct, smul_eq_mul, smul_eq_mul,
    Fintype.card_fin] at h
  have h3 : (x ⬝ᵥ x) * (trace W - ((d : ℝ) - 2)) ≤ 0 := by linarith
  by_contra hcon
  push_neg at hcon
  have : 0 < (x ⬝ᵥ x) * (trace W - ((d : ℝ) - 2)) := mul_pos hxx (by linarith)
  linarith

theorem trace_mul_diagonal_le_flip {W : Matrix (Fin d) (Fin d) ℝ} (hW : W * Wᵀ = 1)
    (hdet : W.det = -1) (σ : Fin d → ℝ) (k : Fin d) (hk : ∀ j, σ k ≤ σ j) (h0 : 0 ≤ σ k) :
    trace (W * diagonal σ) ≤ ∑ i, σ i - 2 * σ k := by
  have hsplit : diagonal σ = σ k • (1 : Matrix (Fin d) (Fin d) ℝ)
      + diagonal (fun i => σ i - σ k) := by
    ext i j
    by_cases hij : i = j
    · subst hij; simp
    · simp [hij]
  have hpsd : (diagonal (fun i => σ i - σ k)).PosSemidef :=
    PosSemidef.diagonal fun i => sub_nonneg.2 (hk i)
  have h1 := trace_orthogonal_mul_le (mul_eq_one_comm.1 hW) hpsd
  have h2 := trace_le_of_det_neg_one hW hdet
  rw [hsplit, Matrix.mul_add, trace_add, Matrix.mul_smul, Matrix.mul_one, trace_smul,
    smul_eq_mul]
  rw [trace_diagonal] at h1
  have h3 : ∑ i, (σ i - σ k) = ∑ i, σ i - (d : ℝ) * σ k := by
    simp [Finset.sum_sub_distrib]
  rw [h3] at h1
  nlinarith

end Improper

/-! ## The contract of `polar_svd` -/

section Svd

variable {n d : ℕ}

theorem update_one_mul_self (k : Fin d) :
    (Function.update (1 : Fin d → ℝ) k (-1)) * (Function.update (1 : Fin d → ℝ) k (-1)) = 1 := by
  ext i
  by_cases h : i = k
  · subst h; simp
  · simp [Function.update_noteq h]

theorem prod_update_one (k : Fin d) :
    ∏ i, Function.update (1 : Fin d → ℝ) k (-1) i = -1 := by
  rw [Finset.prod_update_of_mem (Finset.mem_univ k)]
  simp

theorem sum_update_one_mul (k : Fin d) (σ : Fin d → ℝ) :
    ∑ i, (Function.update (1 : Fin d → ℝ) k (-1) * σ) i = ∑ i, σ i - 2 * σ k := by
  have h : ∀ i, (Function.update (1 : Fin d → ℝ) k (-1) * σ) i
      = σ i - (if i = k then 2 * σ k else 0) := by
    intro i
    by_cases hi : i = k
    · subst hi; simp; ring
    · simp [Function.update_noteq hi, hi]
  simp only [h, Finset.sum_sub_distrib, Finset.sum_ite_eq', Finset.mem_univ, if_true]

/-- The sign vector of the contract squares to one and has the determinant
that makes `R` proper. -/
theorem polarSvd_sign {U V : Matrix (Fin d) (Fin d) ℝ} {σ D : Fin d → ℝ}
    (h : ((U * Vᵀ).det = 1 ∧ D = 1) ∨
      ((U * Vᵀ).det = -1 ∧ ∃ k, (∀ j, σ k ≤ σ j) ∧ D = Function.update (1 : Fin d → ℝ) k (-1))) :
    D * D = 1 ∧ (U * Vᵀ).det * ∏ i, D i = 1 := by
  rcases h with ⟨hd, rfl⟩ | ⟨hd, k, -, rfl⟩
  · simp [hd]
  · rw [update_one_mul_self, prod_update_one, hd]
    simp

theorem IsPolarSvd.orthogonal {S R T : Matrix (Fin d) (Fin d) ℝ} (h : IsPolarSvd S R T) :
    R * Rᵀ = 1 ∧ R.det = 1 := by
  obtain ⟨U, V, σ, D, hU, hV, -, -, hD, rfl, -⟩ := h
  obtain ⟨hDD, hdet⟩ := polarSvd_sign hD
  have hV2 : Vᵀ * V = 1 := mul_eq_one_comm.1 hV
  constructor
  · rw [transpose_mul, transpose_mul, transpose_transpose, diagonal_transpose]
    calc U * diagonal D * Vᵀ * (V * (diagonal D * Uᵀ))
        = U * (diagonal D * (Vᵀ * V) * diagonal D) * Uᵀ := by simp only [Matrix.mul_assoc]
      _ = 1 := by
        have hdd : diagonal D * diagonal D = (1 : Matrix (Fin d) (Fin d) ℝ) := by
          rw [diagonal_mul_diagonal, ← Pi.mul_def, hDD]
          exact diagonal_one
        rw [hV2, Matrix.mul_one, hdd, Matrix.mul_one, hU]
  · rw [det_mul, det_mul, det_diagonal]
    rw [det_mul] at hdet
    linarith [hdet, mul_comm (det U * det Vᵀ) (∏ i, D i), mul_assoc (det U) (∏ i, D i) (det Vᵀ),
      mul_assoc (det U) (det Vᵀ) (∏ i, D i), mul_comm (det Vᵀ) (∏ i, D i)]

theorem IsPolarSvd.mul_eq {S R T : Matrix (Fin d) (Fin d) ℝ} (h : IsPolarSvd S R T) :
    S = R * T := by
  obtain ⟨U, V, σ, D, hU, hV, -, rfl, hD, rfl, rfl⟩ := h
  obtain ⟨hDD, -⟩ := polarSvd_sign hD
  have hV2 : Vᵀ * V = 1 := mul_eq_one_comm.1 hV
  calc U * diagonal σ * Vᵀ
      = U * (diagonal D * diagonal (D * σ)) * Vᵀ := by
        have hσ2 : (fun i => D i * (D * σ) i) = σ := by
          ext i
          have := congrFun hDD i
          simp only [Pi.mul_apply, Pi.one_apply] at this
          simp only [Pi.mul_apply, ← mul_assoc, this, one_mul]
        rw [diagonal_mul_diagonal, hσ2]
    _ = U * diagonal D * (Vᵀ * V) * diagonal (D * σ) * Vᵀ := by
        rw [hV2, Matrix.mul_one]; simp only [Matrix.mul_assoc]
    _ = U * diagonal D * Vᵀ * (V * diagonal (D * σ) * Vᵀ) := by simp only [Matrix.mul_assoc]

/-- The transposed factor of `polar_svd` maximises `tr (Q * S)` over the
proper orthogonal matrices `Q`. -/
theorem trace_mul_le_of_polarSvd {S R T Q : Matrix (Fin d) (Fin d) ℝ} (h : IsPolarSvd S R T)
    (hQ : Q * Qᵀ = 1) (hQdet : Q.det = 1) : trace (Q * S) ≤ trace (Rᵀ * S) := by
  obtain ⟨U, V, σ, D, hU, hV, hσ, rfl, hD, rfl, -⟩ := h
  have hU2 : Uᵀ * U = 1 := mul_eq_one_comm.1 hU
  have hV2 : Vᵀ * V = 1 := mul_eq_one_comm.1 hV
  have hR : trace ((U * diagonal D * Vᵀ)ᵀ * (U * diagonal σ * Vᵀ)) = ∑ i, (D * σ) i := by
    rw [transpose_mul, transpose_mul, transpose_transpose, diagonal_transpose]
    have : V * (diagonal D * Uᵀ) * (U * diagonal σ * Vᵀ)
        = V * (diagonal D * (Uᵀ * U) * diagonal σ) * Vᵀ := by simp only [Matrix.mul_assoc]
    rw [this, hU2, Matrix.mul_one, diagonal_mul_diagonal, trace_mul_comm, ← Matrix.mul_assoc,
      hV2, Matrix.one_mul, trace_diagonal]
    rfl
  have hW : trace (Q * (U * diagonal σ * Vᵀ)) = trace (Vᵀ * Q * U * diagonal σ) := by
    rw [← Matrix.mul_assoc, trace_mul_comm]
    simp only [Matrix.mul_assoc]
  have hWorth : (Vᵀ * Q * U) * (Vᵀ * Q * U)ᵀ = 1 := by
    rw [transpose_mul, transpose_mul, transpose_transpose]
    calc Vᵀ * Q * U * (Uᵀ * (Qᵀ * V)) = Vᵀ * (Q * (U * Uᵀ) * Qᵀ) * V := by
          simp only [Matrix.mul_assoc]
      _ = 1 := by rw [hU, Matrix.mul_one, hQ, Matrix.mul_one, hV2]
  have hWdet : (Vᵀ * Q * U).det = (U * Vᵀ).det := by
    rw [det_mul, det_mul, det_mul, hQdet]
    ring
  rw [hR, hW]
  rcases hD with ⟨-, rfl⟩ | ⟨hd, k, hk, rfl⟩
  · have h1 := trace_orthogonal_mul_le (mul_eq_one_comm.1 hWorth)
      (PosSemidef.diagonal (fun i => hσ i) : (diagonal σ).PosSemidef)
    rw [trace_diagonal] at h1
    simpa using h1
  · rw [sum_update_one_mul]
    exact trace_mul_diagonal_le_flip hWorth (hWdet.trans hd) σ k hk (hσ k)

/-- The transposed factor of `polar_svd` for `S = (s * A)ᵀ * B` minimises
the centred objective over the proper orthogonal matrices. -/
theorem residual_polarSvd_le (s : ℝ) (F T Q : Matrix (Fin d) (Fin d) ℝ)
    (A B : Matrix (Fin n) (Fin d) ℝ)
    (hsvd : IsPolarSvd ((s • A)ᵀ * B) F T) (hQ : Q * Qᵀ = 1) (hQdet : Q.det = 1) :
    residual s Fᵀ 0 A B ≤ residual s Q 0 A B := by
  have hF : F * Fᵀ = 1 := hsvd.orthogonal.1
  have hQ2 : Qᵀ * Q = 1 := mul_eq_one_comm.1 hQ
  have hFt : (Fᵀ)ᵀ * Fᵀ = 1 := by rw [transpose_transpose]; exact hF
  rw [residual_zero_expand s Fᵀ A B hFt, residual_zero_expand s Q A B hQ2]
  have h := trace_mul_le_of_polarSvd hsvd hQ hQdet
  linarith

end Svd

/-! ## Polar decompositions of a Gram matrix of corank one -/

section CorankOne

variable {n d : ℕ}

theorem det_nonneg_of_posSemidef {S : Matrix (Fin d) (Fin d) ℝ} (hS : S.PosSemidef) :
    0 ≤ S.det := by
  rw [hS.1.det_eq_prod_eigenvalues]
  exact Finset.prod_nonneg fun i _ => by simpa using hS.eigenvalues_nonneg i

/-- On a positive semidefinite `S` the answer of `polar_svd` is a polar
decomposition: a sign flip can only occur at a singular value 0. -/
theorem IsPolarSvd.polar_of_posSemidef {S R T : Matrix (Fin d) (Fin d) ℝ}
    (h : IsPolarSvd S R T) (hS : S.PosSemidef) : IsPolarDecomposition S R T := by
  refine ⟨h.mul_eq, h.orthogonal.1, ?_⟩
  obtain ⟨U, V, σ, D, hU, hV, hσ, rfl, hD, -, rfl⟩ := h
  have hDσ : D * σ = σ := by
    rcases hD with ⟨-, rfl⟩ | ⟨hd, k, hk, rfl⟩
    · simp
    · have hdetS : (U * diagonal σ * Vᵀ).det = -∏ i, σ i := by
        rw [det_mul, det_mul, det_diagonal]
        rw [det_mul] at hd
        linear_combination (∏ i, σ i) * hd
      have h0 := det_nonneg_of_posSemidef hS
      rw [hdetS] at h0
      have h1 : 0 ≤ ∏ i, σ i := Finset.prod_nonneg fun i _ => hσ i
      have h2 : ∏ i, σ i = 0 := by linarith
      obtain ⟨j, -, hj⟩ := Finset.prod_eq_zero_iff.1 h2
      have hk0 : σ k = 0 := le_antisymm (hj ▸ hk j) (hσ k)
      ext i
      by_cases hi : i = k
      · subst hi; simp [hk0]
      · simp [Function.update_noteq hi]
  rw [hDσ]
  have hpsd : (diagonal σ).PosSemidef := PosSemidef.diagonal fun i => hσ i
  have := hpsd.mul_mul_conjTranspose_same V
  rwa [conjTranspose_eq_transpose_of_trivial] at this

/-- The second factor of a polar decomposition of a positive semidefinite
`M` is `M` itself. -/
theorem polar_stretch_eq {M F T : Matrix (Fin d) (Fin d) ℝ} (hM : M.PosSemidef)
    (hF : F * Fᵀ = 1) (hT : T.PosSemidef) (h : M = F * T) : T = M := by
  have hF2 : Fᵀ * F = 1 := mul_eq_one_comm.1 hF
  have hTM : T = Fᵀ * M := by rw [h, ← Matrix.mul_assoc, hF2, Matrix.one_mul]
  have hTt : Tᵀ = T := transpose_eq_of_posSemidef hT
  have hMt : Mᵀ = M := transpose_eq_of_posSemidef hM
  have hsq : T ^ 2 = M ^ 2 := by
    rw [pow_two, pow_two]
    nth_rewrite 1 [← hTt]
    rw [hTM, transpose_mul, transpose_transpose, hMt, Matrix.mul_assoc, ← Matrix.mul_assoc F,
      hF, Matrix.one_mul]
  exact hT.eq_of_sq_eq_sq hM hsq

theorem mul_vecMulVec (A : Matrix (Fin d) (Fin d) ℝ) (u v : Fin d → ℝ) :
    A * vecMulVec u v = vecMulVec (A *ᵥ u) v := by
  ext i j
  simp only [Matrix.mul_apply, vecMulVec_apply, mulVec, dotProduct, Finset.sum_mul]
  refine Finset.sum_congr rfl fun k _ => ?_
  ring

theorem vecMulVec_mul (A : Matrix (Fin d) (Fin d) ℝ) (u v : Fin d → ℝ) :
    vecMulVec u v * A = vecMulVec u (Aᵀ *ᵥ v) := by
  ext i j
  simp only [Matrix.mul_apply, vecMulVec_apply, mulVec, dotProduct, Finset.mul_sum,
    transpose_apply]
  refine Finset.sum_congr rfl fun k _ => ?_
  ring

/-- The Householder reflection in the hyperplane orthogonal to `u` has
determinant `-1`. -/
theorem det_householder (u : Fin d → ℝ) (hu : u ⬝ᵥ u ≠ 0) :
    (1 - (2 / (u ⬝ᵥ u)) • vecMulVec u u).det = -1 := by
  have h : (1 : Matrix (Fin d) (Fin d) ℝ) - (2 / (u ⬝ᵥ u)) • vecMulVec u u
      = 1 + col (Fin 1) ((-(2 / (u ⬝ᵥ u))) • u) * row (Fin 1) u := by
    ext i j
    simp [vecMulVec_apply, Matrix.mul_apply, sub_eq_add_neg, mul_assoc]
  rw [h, det_one_add_col_mul_row, dotProduct_smul, smul_eq_mul]
  field_simp
  ring

/-- A positive semidefinite `M` whose kernel lies in a line has one polar
decomposition with a proper orthogonal factor only: if `M = F * T` with `F`
orthogonal of determinant 1 and `T` positive semidefinite then `F = 1`. -/
theorem orthogonal_eq_one_of_polar_corank_one {M F T : Matrix (Fin d) (Fin d) ℝ}
    (hM : M.PosSemidef) (hker : ∃ u : Fin d → ℝ, ∀ v, M *ᵥ v = 0 → ∃ c : ℝ, v = c • u)
    (hF : F * Fᵀ = 1) (hdet : F.det = 1) (hT : T.PosSemidef) (h : M = F * T) : F = 1 := by
  obtain ⟨u, hu⟩ := hker
  by_cases hcase : M *ᵥ u = 0 ∧ u ≠ 0
  · obtain ⟨hMu, hu0⟩ := hcase
    have hF2 : Fᵀ * F = 1 := mul_eq_one_comm.1 hF
    have hMt : Mᵀ = M := transpose_eq_of_posSemidef hM
    have hFM : F * M = M := by
      have h2 := h
      rw [polar_stretch_eq hM hF hT h] at h2
      exact h2.symm
    have hMF : M * F = M := by
      have h1 : Fᵀ * M = M := by
        calc Fᵀ * M = Fᵀ * (F * M) := by rw [hFM]
          _ = M := by rw [← Matrix.mul_assoc, hF2, Matrix.one_mul]
      have h2 := congrArg transpose h1
      rwa [transpose_mul, transpose_transpose, hMt] at h2
    have huu : 0 < u ⬝ᵥ u := by
      have h0 : 0 ≤ u ⬝ᵥ u := Finset.sum_nonneg fun i _ => mul_self_nonneg _
      exact lt_of_le_of_ne h0 fun h => hu0 (dotProduct_self_eq_zero.1 h.symm)
    obtain ⟨c, hc⟩ := hu (F *ᵥ u) (by rw [mulVec_mulVec, hMF, hMu])
    have hnorm : (F *ᵥ u) ⬝ᵥ (F *ᵥ u) = u ⬝ᵥ u := by
      rw [dotProduct_mulVec, ← mulVec_transpose, mulVec_mulVec, hF2, one_mulVec]
    have hc2 : c * c = 1 := by
      rw [hc, smul_dotProduct, dotProduct_smul, smul_eq_mul, smul_eq_mul, ← mul_assoc] at hnorm
      exact mul_right_cancel₀ huu.ne' (hnorm.trans (one_mul _).symm)
    have hP : (M + vecMulVec u u).PosDef := by
      refine ⟨?_, fun x hx => ?_⟩
      · rw [IsHermitian, conjTranspose_eq_transpose_of_trivial, transpose_add, hMt]
        congr 1
        ext i j
        simp [vecMulVec_apply, mul_comm]
      · have hq : star x ⬝ᵥ (M + vecMulVec u u) *ᵥ x
            = star x ⬝ᵥ M *ᵥ x + (u ⬝ᵥ x) * (u ⬝ᵥ x) := by
          rw [add_mulVec, dotProduct_add]
          congr 1
          simp only [star_trivial, dotProduct, mulVec, vecMulVec_apply, Finset.mul_sum,
            Finset.sum_mul]
          rw [Finset.sum_comm]
          refine Finset.sum_congr rfl fun i _ => Finset.sum_congr rfl fun j _ => ?_
          ring
        rw [hq]
        have h1 := hM.2 x
        have h2 := mul_self_nonneg (u ⬝ᵥ x)
        refine lt_of_le_of_ne (add_nonneg h1 h2) fun h0 => hx ?_
        have h3 : star x ⬝ᵥ M *ᵥ x = 0 := by linarith
        have h4 : u ⬝ᵥ x = 0 := mul_self_eq_zero.1 (by linarith)
        obtain ⟨a, ha⟩ := hu x ((hM.dotProduct_mulVec_zero_iff x).1 h3)
        rw [ha, dotProduct_smul, smul_eq_mul] at h4
        rcases mul_eq_zero.1 h4 with h5 | h5
        · rw [ha, h5, zero_smul]
        · exact absurd h5 huu.ne'
    have hPdet : IsUnit (M + vecMulVec u u).det := hP.det_pos.ne'.isUnit
    have hcancel : ∀ G : Matrix (Fin d) (Fin d) ℝ,
        F * (M + vecMulVec u u) = G * (M + vecMulVec u u) → F = G := by
      intro G hG
      calc F = F * (M + vecMulVec u u) * (M + vecMulVec u u)⁻¹ :=
            (Matrix.mul_nonsing_inv_cancel_right _ _ hPdet).symm
        _ = G * (M + vecMulVec u u) * (M + vecMulVec u u)⁻¹ := by rw [hG]
        _ = G := Matrix.mul_nonsing_inv_cancel_right _ _ hPdet
    have hFP : F * (M + vecMulVec u u) = M + c • vecMulVec u u := by
      rw [Matrix.mul_add, hFM, mul_vecMulVec, hc]
      congr 1
      ext i j
      simp [vecMulVec_apply, mul_assoc]
    rcases mul_self_eq_one_iff.1 hc2 with h1 | h1
    · apply hcancel
      rw [hFP, h1, one_smul, Matrix.one_mul]
    · exfalso
      have hH : F = 1 - (2 / (u ⬝ᵥ u)) • vecMulVec u u := by
        apply hcancel
        rw [hFP, h1, Matrix.sub_mul, Matrix.one_mul, Matrix.smul_mul, Matrix.mul_add,
          vecMulVec_mul, hMt, hMu, mul_vecMulVec]
        ext i j
        simp only [Matrix.add_apply, Matrix.sub_apply, Matrix.smul_apply, vecMulVec_apply,
          mulVec, smul_eq_mul, Pi.zero_apply, mul_zero, zero_add]
        have hrow : (fun k => u i * u k) ⬝ᵥ u = u i * (u ⬝ᵥ u) := by
          simp only [dotProduct, Finset.mul_sum, mul_assoc]
        rw [hrow]
        field_simp
        ring
      rw [hH, det_householder u huu.ne'] at hdet
      norm_num at hdet
  · have hker0 : ∀ v, M *ᵥ v = 0 → v = 0 := by
      intro v hv
      obtain ⟨c, rfl⟩ := hu v hv
      by_cases hu0 : u = 0
      · rw [hu0, smul_zero]
      · have hMu : M *ᵥ u ≠ 0 := fun h0 => hcase ⟨h0, hu0⟩
        rw [mulVec_smul] at hv
        rcases smul_eq_zero.1 hv with h1 | h1
        · rw [h1, zero_smul]
        · exact absurd h1 hMu
    have hPD : M.PosDef :=
      ⟨hM.1, fun x hx => lt_of_le_of_ne (hM.2 x) fun h0 =>
        hx (hker0 x ((hM.dotProduct_mulVec_zero_iff x).1 h0.symm))⟩
    exact orthogonal_eq_one_of_polar hPD hF hT h

end CorankOne

/-! ## Properties of the overloads -/

section Overloads

variable {n d m e : ℕ}

/-- C6 (scale default): with `includeScaling = false` every result of the
primary overload has `scale = 1` and its rotation is the transposed factor
the selected polar primitive returns for `S = XCᵀ * YC`, where `XC` and `YC`
are the centred, unscaled point sets; with at least one point the call does
return a result. -/
theorem scale_default {K : Type} [LinearOrderedField K] (sqrt : K → K)
    (polar_dec polar_svd :
      Matrix (Fin d) (Fin d) K → Matrix (Fin d) (Fin d) K × Matrix (Fin d) (Fin d) K)
    (X Y : Matrix (Fin n) (Fin d) K) (rf : Bool) :
    (∀ r, procrustes sqrt polar_dec polar_svd X Y false rf = .ok r →
      r.scale = 1 ∧
      r.R = ((if rf then polar_dec ((rowwiseSub X (meanVec X))ᵀ * rowwiseSub Y (meanVec Y))
              else polar_svd ((rowwiseSub X (meanVec X))ᵀ * rowwiseSub Y (meanVec Y))).1)ᵀ) ∧
    (0 < n → ∃ r, procrustes sqrt polar_dec polar_svd X Y false rf = .ok r) := by
  refine ⟨fun r hr => ?_, fun hn => ⟨_, procrustes_false_eq sqrt polar_dec polar_svd X Y rf hn⟩⟩
  obtain ⟨s, XCs, hs, rfl⟩ := procrustes_ok_inv sqrt polar_dec polar_svd X Y false rf r hr
  have h1 : ((1 : K), centred X) = (s, XCs) := Except.ok.inj hs
  obtain ⟨rfl, rfl⟩ := Prod.mk.inj h1
  exact ⟨rfl, rfl⟩

theorem scale_default_witness :
    ∃ r, procrustes Real.sqrt (polarWith (rot270 ℝ)) (polarWith (rot270 ℝ))
        (triangleX ℝ) (triangleY ℝ) false false = .ok r ∧ r.scale = 1 := by
  obtain ⟨r, hr⟩ := (scale_default Real.sqrt (polarWith (rot270 ℝ)) (polarWith (rot270 ℝ))
    (triangleX ℝ) (triangleY ℝ) false).2 (by decide)
  exact ⟨r, hr, ((scale_default Real.sqrt (polarWith (rot270 ℝ)) (polarWith (rot270 ℝ))
    (triangleX ℝ) (triangleY ℝ) false).1 r hr).1⟩

/-- C7 (rotation invariant): when `polar_dec` returns an orthogonal factor
and `polar_svd` an orthogonal factor of determinant 1, every rotation the
primary overload returns satisfies `R * Rᵀ = 1`, and `det R = 1` when
`includeReflections = false`; the call returns a result whenever there is at
least one point and, if scaling is requested, the centred source is not
zero. -/
theorem rotation_orthogonal
    (polar_dec polar_svd :
      Matrix (Fin d) (Fin d) ℝ → Matrix (Fin d) (Fin d) ℝ × Matrix (Fin d) (Fin d) ℝ)
    (X Y : Matrix (Fin n) (Fin d) ℝ) (sc rf : Bool)
    (hdec : ∀ S, (polar_dec S).1 * (polar_dec S).1ᵀ = 1)
    (hsvd : ∀ S, (polar_svd S).1 * (polar_svd S).1ᵀ = 1 ∧ (polar_svd S).1.det = 1) :
    (∀ r, procrustes Real.sqrt polar_dec polar_svd X Y sc rf = .ok r →
      r.R * r.Rᵀ = 1 ∧ (rf = false → r.R.det = 1)) ∧
    (0 < n → (sc = true → rowwiseSub X (meanVec X) ≠ 0) →
      ∃ r, procrustes Real.sqrt polar_dec polar_svd X Y sc rf = .ok r) := by
  refine ⟨fun r hr => ?_, fun hn hX => ⟨_, procrustes_eq polar_dec polar_svd X Y sc rf hn hX⟩⟩
  obtain ⟨s, XCs, -, rfl⟩ := procrustes_ok_inv Real.sqrt polar_dec polar_svd X Y sc rf r hr
  cases rf
  · refine ⟨?_, fun _ => ?_⟩
    · simpa using mul_eq_one_comm.1 (hsvd (XCsᵀ * centred Y)).1
    · simpa using (hsvd (XCsᵀ * centred Y)).2
  · refine ⟨?_, fun h => by cases h⟩
    simpa using mul_eq_one_comm.1 (hdec (XCsᵀ * centred Y))

theorem rot270_orthogonal :
    rot270 ℝ * (rot270 ℝ)ᵀ = 1 ∧ (rot270 ℝ).det = 1 := by
  constructor
  · ext i j
    simp only [Matrix.mul_apply, Matrix.transpose_apply, Fin.sum_univ_two]
    fin_cases i <;> fin_cases j <;> simp [rot270]
  · simp [rot270, Matrix.det_fin_two]

theorem triangleX_centred_ne_zero : rowwiseSub (triangleX ℝ) (meanVec (triangleX ℝ)) ≠ 0 := by
  intro h
  have h00 := congrFun (congrFun h 0) 0
  simp [rowwiseSub, meanVec, triangleX, Fin.sum_univ_three] at h00
  norm_num at h00

theorem rotation_orthogonal_witness :
    ∃ r, procrustes Real.sqrt (polarWith (rot270 ℝ)) (polarWith (rot270 ℝ))
        (triangleX ℝ) (triangleY ℝ) true false = .ok r ∧ r.R * r.Rᵀ = 1 ∧ r.R.det = 1 := by
  have h := rotation_orthogonal (polarWith (rot270 ℝ)) (polarWith (rot270 ℝ))
    (triangleX ℝ) (triangleY ℝ) true false
    (fun _ => rot270_orthogonal.1) (fun _ => rot270_orthogonal)
  obtain ⟨r, hr⟩ := h.2 (by decide) (fun _ => triangleX_centred_ne_zero)
  exact ⟨r, hr, (h.1 r hr).1, (h.1 r hr).2 rfl⟩

/-- C9 (scaled-rotation overload): the six-argument overload fails exactly
when the primary overload fails and otherwise returns `(scale • R, t)` for
the triple `(scale, R, t)` of the primary overload on the same inputs; with
`includeScaling = false` it returns `(R, t)`. -/
theorem scaledRotation_agrees {K : Type} [LinearOrderedField K] (sqrt : K → K)
    (polar_dec polar_svd :
      Matrix (Fin d) (Fin d) K → Matrix (Fin d) (Fin d) K × Matrix (Fin d) (Fin d) K)
    (X Y : Matrix (Fin n) (Fin d) K) (sc rf : Bool) :
    procrustesScaledRotation sqrt polar_dec polar_svd X Y sc rf
      = (procrustes sqrt polar_dec polar_svd X Y sc rf).map (fun r => (r.scale • r.R, r.t)) ∧
    (∀ r, procrustes sqrt polar_dec polar_svd X Y false rf = .ok r →
      procrustesScaledRotation sqrt polar_dec polar_svd X Y false rf = .ok (r.R, r.t)) := by
  have key : ∀ b : Bool, procrustesScaledRotation sqrt polar_dec polar_svd X Y b rf
      = (procrustes sqrt polar_dec polar_svd X Y b rf).map
          (fun r => (r.scale • r.R, r.t)) := by
    intro b
    unfold procrustesScaledRotation
    cases procrustes sqrt polar_dec polar_svd X Y b rf with
    | error err => rfl
    | ok r => simp [bind, Except.bind, pure, Except.pure, Except.map, mulScalar_eq_smul]
  refine ⟨key sc, fun r hr => ?_⟩
  obtain ⟨s, XCs, hs, hr2⟩ := procrustes_ok_inv sqrt polar_dec polar_svd X Y false rf r hr
  have h1 : ((1 : K), centred X) = (s, XCs) := Except.ok.inj hs
  have hscale : r.scale = 1 := by rw [hr2]; exact (Prod.mk.inj h1).1.symm
  rw [key false, hr]
  simp [Except.map, hscale]

theorem scaledRotation_agrees_witness :
    ∃ r, procrustes Real.sqrt (polarWith (rot270 ℝ)) (polarWith (rot270 ℝ))
        (triangleX ℝ) (triangleY ℝ) false false = .ok r ∧
      procrustesScaledRotation Real.sqrt (polarWith (rot270 ℝ)) (polarWith (rot270 ℝ))
        (triangleX ℝ) (triangleY ℝ) false false = .ok (r.R, r.t) :=
  ⟨_, procrustes_false_eq Real.sqrt _ _ _ _ false (by decide),
    (scaledRotation_agrees Real.sqrt (polarWith (rot270 ℝ)) (polarWith (rot270 ℝ))
      (triangleX ℝ) (triangleY ℝ) false false).2 _
      (procrustes_false_eq Real.sqrt _ _ _ _ false (by decide))⟩

/-- C8 (dimension mismatch rejection): the 2-D-angle overload ends with the
failed assertion `dimension2`, whatever the point sets and the primitives
are, as soon as `X` or `Y` does not have exactly 2 columns; when both have 2
columns its outcome is that of the scaled-rotation overload with both flags
false, with the matrix converted to an angle. -/
theorem rotation2D_dimension_check {K : Type} [LinearOrderedField K] (sqrt : K → K)
    (polar_dec polar_svd :
      Matrix (Fin d) (Fin d) K → Matrix (Fin d) (Fin d) K × Matrix (Fin d) (Fin d) K)
    (atan2 : K → K → K)
    (X : Matrix (Fin n) (Fin d) K) (Y : Matrix (Fin m) (Fin e) K) :
    (d ≠ 2 ∨ e ≠ 2 →
      procrustesRotation2D sqrt polar_dec polar_svd atan2 X Y = .error .dimension2) ∧
    (∀ h : d = 2 ∧ e = 2,
      procrustesRotation2D sqrt polar_dec polar_svd atan2 X Y
        = (procrustesScaledRotation sqrt polar_dec polar_svd X Y false false).map
            (fun Rt => (fromRotationMatrix atan2 h.1 Rt.1, Rt.2))) := by
  constructor
  · intro h
    have hne : ¬ (d = 2 ∧ e = 2) := by
      rintro ⟨h1, h2⟩
      rcases h with h | h
      · exact h h1
      · exact h h2
    simp only [procrustesRotation2D, dif_neg hne]
    rfl
  · intro h
    simp only [procrustesRotation2D, dif_pos h]
    cases procrustesScaledRotation sqrt polar_dec polar_svd X Y false false with
    | error err => rfl
    | ok Rt => rfl

theorem rotation2D_dimension_check_witness :
    procrustesRotation2D Real.sqrt (polarWith 1) (polarWith 1)
      (fun y x => Complex.arg ⟨x, y⟩) (tetraX ℝ) (tetraX ℝ) = .error .dimension2 :=
  (rotation2D_dimension_check Real.sqrt (polarWith 1) (polarWith 1)
    (fun y x => Complex.arg ⟨x, y⟩) (tetraX ℝ) (tetraX ℝ)).1 (Or.inl (by decide))

/-- C10 (scale self-consistency): with at least one point and a centred
source that is not zero, the call with `includeScaling = true` passes the
assertion of line 40 and returns a result; the rescaled centred source has
the average norm of the centred target, `‖scale * XC‖ / n = ‖YC‖ / n`, and
the scale is non-negative. -/
theorem scale_self_consistent
    (polar_dec polar_svd :
      Matrix (Fin d) (Fin d) ℝ → Matrix (Fin d) (Fin d) ℝ × Matrix (Fin d) (Fin d) ℝ)
    (X Y : Matrix (Fin n) (Fin d) ℝ) (rf : Bool) (hn : 0 < n)
    (hX : rowwiseSub X (meanVec X) ≠ 0) :
    ∃ r, procrustes Real.sqrt polar_dec polar_svd X Y true rf = .ok r ∧
      scaleStep Real.sqrt (rowwiseSub X (meanVec X)) (rowwiseSub Y (meanVec Y)) true
        = .ok (r.scale, mulScalar (rowwiseSub X (meanVec X)) r.scale) ∧
      norm Real.sqrt (mulScalar (rowwiseSub X (meanVec X)) r.scale) / (n : ℝ)
        = norm Real.sqrt (rowwiseSub Y (meanVec Y)) / (n : ℝ) ∧
      0 ≤ r.scale := by
  refine ⟨_, procrustes_eq polar_dec polar_svd X Y true rf hn (fun _ => hX), ?_, ?_, ?_⟩
  · exact scaleStep_true _ _ hn hX
  · show norm Real.sqrt (mulScalar (centred X) (scaleRatio Real.sqrt (centred X) (centred Y)))
        / (n : ℝ) = norm Real.sqrt (centred Y) / (n : ℝ)
    rw [norm_mulScalar _ (scaleRatio_nonneg _ _),
      scaleRatio_mul_norm (centred X) (centred Y) hn hX]
  · exact scaleRatio_nonneg _ _

theorem scale_self_consistent_witness :
    ∃ r, procrustes Real.sqrt (polarWith (rot270 ℝ)) (polarWith (rot270 ℝ))
        (triangleX ℝ) (triangleY ℝ) true true = .ok r ∧ 0 ≤ r.scale := by
  obtain ⟨r, hr, -, -, h0⟩ := scale_self_consistent (polarWith (rot270 ℝ))
    (polarWith (rot270 ℝ)) (triangleX ℝ) (triangleY ℝ) true (by decide) triangleX_centred_ne_zero
  exact ⟨r, hr, h0⟩

theorem pos_of_ne_zero_matrix {K : Type} [LinearOrderedField K]
    (M : Matrix (Fin n) (Fin d) K) (hM : M ≠ 0) : 0 < n := by
  rcases Nat.eq_zero_or_pos n with h | h
  · subst h
    exact absurd (Matrix.ext fun i => i.elim0) hM
  · exact h

theorem centred_affine (X : Matrix (Fin n) (Fin d) ℝ) (k : ℝ) (t0 : Fin d → ℝ) (hn : 0 < n) :
    centred (Matrix.of fun i j => k * X i j + t0 j) = mulScalar (centred X) k := by
  have hn0 : (n : ℝ) ≠ 0 := Nat.cast_ne_zero.2 hn.ne.symm
  ext i j
  simp only [centred, rowwiseSub, meanVec, mulScalar, Matrix.of_apply, Finset.sum_add_distrib,
    Finset.sum_const, Finset.card_univ, Fintype.card_fin, ← Finset.mul_sum, nsmul_eq_mul]
  field_simp
  ring

/-- C5 (pure scaling recovery): if the centred source is not zero, `k > 0`
and `Y = k * X + t0` row by row, the call with `includeScaling = true`
returns a result whose scale is `k`, for both values of
`includeReflections`. -/
theorem pure_scaling_recovery
    (polar_dec polar_svd :
      Matrix (Fin d) (Fin d) ℝ → Matrix (Fin d) (Fin d) ℝ × Matrix (Fin d) (Fin d) ℝ)
    (X : Matrix (Fin n) (Fin d) ℝ) (k : ℝ) (t0 : Fin d → ℝ) (rf : Bool)
    (hX : rowwiseSub X (meanVec X) ≠ 0) (hk : 0 < k) :
    ∃ r, procrustes Real.sqrt polar_dec polar_svd X (Matrix.of fun i j => k * X i j + t0 j)
        true rf = .ok r ∧ r.scale = k := by
  have hn : 0 < n := pos_of_ne_zero_matrix _ hX
  have hn0 : (n : ℝ) ≠ 0 := Nat.cast_ne_zero.2 hn.ne.symm
  have hx : norm Real.sqrt (centred X) ≠ 0 := fun h => hX ((norm_eq_zero_iff _).1 h)
  refine ⟨_, procrustes_eq polar_dec polar_svd X _ true rf hn (fun _ => hX), ?_⟩
  show scaleRatio Real.sqrt (centred X) (centred (Matrix.of fun i j => k * X i j + t0 j)) = k
  rw [centred_affine X k t0 hn]
  unfold scaleRatio
  rw [norm_mulScalar _ hk.le]
  field_simp

theorem pure_scaling_recovery_witness :
    ∃ r, procrustes Real.sqrt (polarWith (rot270 ℝ)) (polarWith (rot270 ℝ)) (triangleX ℝ)
        (Matrix.of fun i j => 3 * triangleX ℝ i j + ![5, 7] j) true false = .ok r ∧
      r.scale = 3 :=
  pure_scaling_recovery (polarWith (rot270 ℝ)) (polarWith (rot270 ℝ)) (triangleX ℝ) 3 ![5, 7]
    false triangleX_centred_ne_zero (by norm_num)

end Overloads

/-! ## The triangle and its quarter turn -/

section Triangle

theorem meanVec_triangleX : meanVec (triangleX ℝ) = ![1, 1] := by
  ext j
  fin_cases j <;> norm_num [meanVec, triangleX, Fin.sum_univ_three]

theorem meanVec_triangleY : meanVec (triangleY ℝ) = ![-1, 1] := by
  ext j
  fin_cases j <;> norm_num [meanVec, triangleY, Fin.sum_univ_three]

theorem centred_triangleX : centred (triangleX ℝ) = !![-1, -1; 1, -1; 0, 2] := by
  rw [centred, meanVec_triangleX]
  ext i j
  fin_cases i <;> fin_cases j <;> simp [rowwiseSub, triangleX] <;> norm_num

theorem centred_triangleY : centred (triangleY ℝ) = !![1, -1; 1, 1; -2, 0] := by
  rw [centred, meanVec_triangleY]
  ext i j
  fin_cases i <;> fin_cases j <;> simp [rowwiseSub, triangleY] <;> norm_num

theorem crossCov_triangle :
    (centred (triangleX ℝ))ᵀ * centred (triangleY ℝ) = !![0, 2; -6, 0] := by
  rw [centred_triangleX, centred_triangleY]
  ext i j
  simp only [Matrix.mul_apply, Matrix.transpose_apply, Fin.sum_univ_three]
  fin_cases i <;> fin_cases j <;> simp <;> norm_num

theorem rot270_stretch : (rot270 ℝ)ᵀ * !![0, 2; -6, 0] = Matrix.diagonal ![6, 2] := by
  ext i j
  simp only [Matrix.mul_apply, Matrix.transpose_apply, Fin.sum_univ_two]
  fin_cases i <;> fin_cases j <;> simp [rot270]

theorem rot270_transpose : (rot270 ℝ)ᵀ = rot90 ℝ := by
  ext i j
  simp only [Matrix.transpose_apply]
  fin_cases i <;> fin_cases j <;> simp [rot270, rot90]

/-- The answer of `polarWith rot270` on the cross-covariance of the two
triangles meets the contract of the polar primitives. -/
theorem triangle_polar :
    IsPolarDecomposition ((centred (triangleX ℝ))ᵀ * centred (triangleY ℝ))
      (polarWith (rot270 ℝ) ((centred (triangleX ℝ))ᵀ * centred (triangleY ℝ))).1
      (polarWith (rot270 ℝ) ((centred (triangleX ℝ))ᵀ * centred (triangleY ℝ))).2 := by
  refine ⟨?_, rot270_orthogonal.1, ?_⟩
  · show _ = rot270 ℝ * ((rot270 ℝ)ᵀ * _)
    rw [← Matrix.mul_assoc, rot270_orthogonal.1, Matrix.one_mul]
  · show ((rot270 ℝ)ᵀ * _).PosSemidef
    rw [crossCov_triangle, rot270_stretch]
    refine Matrix.PosSemidef.diagonal ?_
    intro i
    fin_cases i <;> simp

theorem triangleY_eq (i : Fin 3) : triangleY ℝ i = rot90 ℝ *ᵥ triangleX ℝ i + 0 := by
  ext j
  simp only [Matrix.mulVec, Matrix.dotProduct, Fin.sum_univ_two, Pi.add_apply, Pi.zero_apply]
  fin_cases i <;> fin_cases j <;> simp [triangleX, triangleY, rot90]

/-- The value of the primary overload on the two triangles, without scaling. -/
theorem procrustes_triangle (rf : Bool) :
    procrustes Real.sqrt (polarWith (rot270 ℝ)) (polarWith (rot270 ℝ))
        (triangleX ℝ) (triangleY ℝ) false rf = .ok ⟨1, rot90 ℝ, ![-2, 2]⟩ := by
  rw [procrustes_false_eq Real.sqrt _ _ _ _ rf (by decide)]
  have hR : ((if rf then polarWith (rot270 ℝ) ((centred (triangleX ℝ))ᵀ * centred (triangleY ℝ))
      else polarWith (rot270 ℝ) ((centred (triangleX ℝ))ᵀ * centred (triangleY ℝ))).1)ᵀ
      = rot90 ℝ := by
    cases rf <;> exact rot270_transpose
  rw [hR, meanVec_triangleX, meanVec_triangleY]
  congr 2
  ext j
  simp only [Matrix.mulVec, Matrix.dotProduct, Fin.sum_univ_two, Pi.sub_apply,
    Matrix.smul_apply, Matrix.transpose_apply, one_smul]
  fin_cases j <;> simp [rot90] <;> norm_num

end Triangle

section Defects

/-- C1 (centroid alignment), evaluated on the triangle `triangleX` and its
quarter turn `triangleY`, with `polar_svd` returning the polar decomposition
of the cross-covariance: the transform `Translation(t) * R * Scaling(scale)`
sends the centroid `(1, 1)` of `X` to `(-3, 3)`, and the centroid of `Y` is
`(-1, 1)`. -/
theorem centroid_alignment_fails :
    IsPolarDecomposition ((centred (triangleX ℝ))ᵀ * centred (triangleY ℝ))
      (polarWith (rot270 ℝ) ((centred (triangleX ℝ))ᵀ * centred (triangleY ℝ))).1
      (polarWith (rot270 ℝ) ((centred (triangleX ℝ))ᵀ * centred (triangleY ℝ))).2 ∧
    (rot270 ℝ).det = 1 ∧
    ∃ T, procrustesTransform Real.sqrt (polarWith (rot270 ℝ)) (polarWith (rot270 ℝ))
        (triangleX ℝ) (triangleY ℝ) false false = .ok T ∧
      meanVec (triangleX ℝ) = ![1, 1] ∧ meanVec (triangleY ℝ) = ![-1, 1] ∧
      T.apply (meanVec (triangleX ℝ)) = ![-3, 3] ∧
      T.apply (meanVec (triangleX ℝ)) ≠ meanVec (triangleY ℝ) := by
  have hT : procrustesTransform Real.sqrt (polarWith (rot270 ℝ)) (polarWith (rot270 ℝ))
      (triangleX ℝ) (triangleY ℝ) false false
      = .ok (((Transform.ofTranslation ![-2, 2]).mulLinear (rot90 ℝ)).mulScaling 1) := by
    unfold procrustesTransform
    rw [procrustes_triangle false]
    rfl
  have happ : (((Transform.ofTranslation ![-2, 2]).mulLinear (rot90 ℝ)).mulScaling
      (1 : ℝ)).apply ![1, 1] = ![-3, 3] := by
    ext j
    simp only [Transform.apply, Transform.mulScaling, Transform.mulLinear,
      Transform.ofTranslation, mulScalar, Matrix.mulVec, Matrix.dotProduct, Fin.sum_univ_two,
      Pi.add_apply, Matrix.of_apply, Matrix.one_mul, mul_one]
    fin_cases j <;> simp [rot90] <;> norm_num
  refine ⟨triangle_polar, rot270_orthogonal.2, _, hT, meanVec_triangleX, meanVec_triangleY, ?_, ?_⟩
  · rw [meanVec_triangleX, happ]
  · rw [meanVec_triangleX, meanVec_triangleY, happ]
    intro h
    have h0 := congrFun h 0
    simp at h0

/-- C2 (pure rotation recovery), evaluated on the triangle `triangleX`, the
quarter turn `R0 = rot90` and `t0 = 0`: with `Y = R0 * X + t0` row by row and
the polar primitives returning the polar decomposition of the
cross-covariance, the primary overload returns the scale 1 and the rotation
`R0`, and the translation `(-2, 2)` instead of `t0 = (0, 0)`, for both values
of `includeReflections`. -/
theorem rotation_recovery_translation_off :
    (∀ i, triangleY ℝ i = rot90 ℝ *ᵥ triangleX ℝ i + 0) ∧
    IsPolarDecomposition ((centred (triangleX ℝ))ᵀ * centred (triangleY ℝ))
      (polarWith (rot270 ℝ) ((centred (triangleX ℝ))ᵀ * centred (triangleY ℝ))).1
      (polarWith (rot270 ℝ) ((centred (triangleX ℝ))ᵀ * centred (triangleY ℝ))).2 ∧
    (∀ rf, procrustes Real.sqrt (polarWith (rot270 ℝ)) (polarWith (rot270 ℝ))
        (triangleX ℝ) (triangleY ℝ) false rf = .ok ⟨1, rot90 ℝ, ![-2, 2]⟩) ∧
    (![-2, 2] : Fin 2 → ℝ) ≠ 0 := by
  refine ⟨triangleY_eq, triangle_polar, procrustes_triangle, ?_⟩
  intro h
  have h0 := congrFun h 0
  simp at h0

/-- The general form of the defect behind C1: the transform of line 85 sends
the centroid of `X` to `Ymean + scale * (R - Rᵀ) * Xmean`. -/
theorem transform_centroid_offset {n d : ℕ}
    (polar_dec polar_svd :
      Matrix (Fin d) (Fin d) ℝ → Matrix (Fin d) (Fin d) ℝ × Matrix (Fin d) (Fin d) ℝ)
    (X Y : Matrix (Fin n) (Fin d) ℝ) (sc rf : Bool) (hn : 0 < n)
    (hX : sc = true → centred X ≠ 0) :
    ∃ r T, procrustes Real.sqrt polar_dec polar_svd X Y sc rf = .ok r ∧
      procrustesTransform Real.sqrt polar_dec polar_svd X Y sc rf = .ok T ∧
      T.apply (meanVec X) = meanVec Y + r.scale • ((r.R - r.Rᵀ) *ᵥ meanVec X) := by
  have hr := procrustes_eq polar_dec polar_svd X Y sc rf hn hX
  refine ⟨_, ((Transform.ofTranslation (meanVec Y - (scaleOf Real.sqrt X Y sc
      • ((polarFactor Real.sqrt polar_dec polar_svd X Y sc rf)ᵀ)ᵀ) *ᵥ meanVec X)).mulLinear
      (polarFactor Real.sqrt polar_dec polar_svd X Y sc rf)ᵀ).mulScaling
      (scaleOf Real.sqrt X Y sc), hr, ?_, ?_⟩
  · unfold procrustesTransform
    rw [hr]
    rfl
  · simp only [Transform.apply, Transform.mulScaling, Transform.mulLinear,
      Transform.ofTranslation, Matrix.one_mul, mulScalar_eq_smul, Matrix.smul_mulVec_assoc,
      Matrix.sub_mulVec, smul_sub]
    abel

/-- The general form of the defect behind C2: for a centred `X` with
independent columns, an orthogonal `R0` and `Y = R0 * X + t0` row by row, the
call without scaling returns the scale 1, the rotation `R0` and the
translation `t0 + (R0 - R0ᵀ) * Xmean`. -/
theorem rotation_recovery_offset {n d : ℕ}
    (polar_dec polar_svd :
      Matrix (Fin d) (Fin d) ℝ → Matrix (Fin d) (Fin d) ℝ × Matrix (Fin d) (Fin d) ℝ)
    (X : Matrix (Fin n) (Fin d) ℝ) (R0 : Matrix (Fin d) (Fin d) ℝ) (t0 : Fin d → ℝ)
    (rf : Bool) (hn : 0 < n)
    (hrank : ∀ v, centred X *ᵥ v = 0 → v = 0) (hR0 : R0 * R0ᵀ = 1)
    (hpolar : IsPolarDecomposition
      (crossCovariance Real.sqrt X (Matrix.of fun i => R0 *ᵥ X i + t0) false)
      (polarFactor Real.sqrt polar_dec polar_svd X (Matrix.of fun i => R0 *ᵥ X i + t0)
        false rf)
      (polarStretch Real.sqrt polar_dec polar_svd X (Matrix.of fun i => R0 *ᵥ X i + t0)
        false rf)) :
    procrustes Real.sqrt polar_dec polar_svd X (Matrix.of fun i => R0 *ᵥ X i + t0) false rf
      = .ok ⟨1, R0, t0 + (R0 - R0ᵀ) *ᵥ meanVec X⟩ := by
  have hn0 : (n : ℝ) ≠ 0 := Nat.cast_ne_zero.2 hn.ne.symm
  have hR02 : R0ᵀ * R0 = 1 := mul_eq_one_comm.1 hR0
  have hmean : meanVec (Matrix.of fun i => R0 *ᵥ X i + t0) = R0 *ᵥ meanVec X + t0 := by
    ext j
    simp only [meanVec, Matrix.of_apply, Pi.add_apply, Matrix.mulVec, Matrix.dotProduct,
      Finset.sum_add_distrib, Finset.sum_const, Finset.card_univ, Fintype.card_fin,
      nsmul_eq_mul]
    rw [Finset.sum_comm, add_div, mul_div_cancel_left₀ _ hn0, Finset.sum_div]
    congr 1
    refine Finset.sum_congr rfl fun k _ => ?_
    rw [← Finset.mul_sum, mul_div_assoc]
  have hcen : centred (Matrix.of fun i => R0 *ᵥ X i + t0) = centred X * R0ᵀ := by
    ext i j
    simp only [centred, rowwiseSub, hmean, Matrix.of_apply, Pi.add_apply, Matrix.mulVec,
      Matrix.dotProduct, Matrix.mul_apply, Matrix.transpose_apply]
    rw [add_sub_add_right_eq_sub, ← Finset.sum_sub_distrib]
    refine Finset.sum_congr rfl fun k _ => ?_
    ring
  obtain ⟨hS, hF, hT⟩ := hpolar
  have hS2 : (centred X)ᵀ * centred X
      = (polarFactor Real.sqrt polar_dec polar_svd X (Matrix.of fun i => R0 *ᵥ X i + t0)
          false rf * R0)
        * (R0ᴴ * polarStretch Real.sqrt polar_dec polar_svd X
          (Matrix.of fun i => R0 *ᵥ X i + t0) false rf * R0) := by
    have h1 : crossCovariance Real.sqrt X (Matrix.of fun i => R0 *ᵥ X i + t0) false
        = (centred X)ᵀ * centred X * R0ᵀ := by
      show (centred X)ᵀ * centred (Matrix.of fun i => R0 *ᵥ X i + t0) = _
      rw [hcen, Matrix.mul_assoc]
    rw [h1] at hS
    rw [conjTranspose_eq_transpose_of_trivial]
    calc (centred X)ᵀ * centred X
        = (centred X)ᵀ * centred X * R0ᵀ * R0 := by
          rw [Matrix.mul_assoc _ R0ᵀ, hR02, Matrix.mul_one]
      _ = _ := by
          rw [hS]
          simp only [Matrix.mul_assoc]
          rw [← Matrix.mul_assoc R0 R0ᵀ, hR0, Matrix.one_mul]
  have hU : (polarFactor Real.sqrt polar_dec polar_svd X (Matrix.of fun i => R0 *ᵥ X i + t0)
      false rf * R0)
      * (polarFactor Real.sqrt polar_dec polar_svd X (Matrix.of fun i => R0 *ᵥ X i + t0)
      false rf * R0)ᵀ = 1 := by
    rw [transpose_mul, Matrix.mul_assoc, ← Matrix.mul_assoc R0, hR0, Matrix.one_mul, hF]
  have hone := orthogonal_eq_one_of_polar (posDef_gram _ hrank) hU
    (hT.conjTranspose_mul_mul_same R0) hS2
  have hFeq : polarFactor Real.sqrt polar_dec polar_svd X (Matrix.of fun i => R0 *ᵥ X i + t0)
      false rf = R0ᵀ := by
    have h2 := congrArg (fun M => M * R0ᵀ) hone
    simp only [Matrix.mul_assoc, hR0, Matrix.mul_one, Matrix.one_mul] at h2
    exact h2
  rw [procrustes_eq polar_dec polar_svd X _ false rf hn (fun h => by cases h), hFeq, hmean]
  have hs : scaleOf Real.sqrt X (Matrix.of fun i => R0 *ᵥ X i + t0) false = 1 := rfl
  rw [hs]
  simp only [transpose_transpose, one_smul, Matrix.sub_mulVec]
  congr 1
  abel_nf

end Defects

/-! ## The identity case -/

section Identity

variable {n d : ℕ}

theorem centred_ne_zero_of_rows_ne (X : Matrix (Fin n) (Fin d) ℝ) (hX : ∃ i j, X i ≠ X j) :
    centred X ≠ 0 := by
  obtain ⟨i, j, hij⟩ := hX
  intro h
  apply hij
  ext c
  have hi := congrFun (congrFun h i) c
  have hj := congrFun (congrFun h j) c
  simp only [centred, rowwiseSub, Matrix.of_apply, Matrix.zero_apply] at hi hj
  linarith

theorem mulScalar_one {K : Type} [LinearOrderedField K] (M : Matrix (Fin n) (Fin d) K) :
    mulScalar M 1 = M := by
  ext i j
  simp [mulScalar]

theorem scaleRatio_self (XC : Matrix (Fin n) (Fin d) ℝ) (hn : 0 < n) (hX : XC ≠ 0) :
    scaleRatio Real.sqrt XC XC = 1 := by
  have hx : norm Real.sqrt XC ≠ 0 := fun h => hX ((norm_eq_zero_iff XC).1 h)
  have hn0 : (n : ℝ) ≠ 0 := Nat.cast_ne_zero.2 hn.ne.symm
  exact div_self (div_ne_zero hx hn0)

theorem gram_mulVec_eq_zero (A : Matrix (Fin n) (Fin d) ℝ) (v : Fin d → ℝ)
    (h : (Aᵀ * A) *ᵥ v = 0) : A *ᵥ v = 0 := by
  have h1 : (A *ᵥ v) ⬝ᵥ (A *ᵥ v) = v ⬝ᵥ (Aᵀ * A) *ᵥ v := by
    rw [← mulVec_mulVec, dotProduct_mulVec v, vecMul_transpose]
  rw [h, dotProduct_zero] at h1
  exact dotProduct_self_eq_zero.1 h1

theorem posSemidef_gram (A : Matrix (Fin n) (Fin d) ℝ) : (Aᵀ * A).PosSemidef := by
  have h := posSemidef_conjTranspose_mul_self A
  rwa [conjTranspose_eq_transpose_of_trivial] at h

/-- C4 (identity case, amended): let the rows of `X` not all be the same
point and let `Y = X`, so that `S = XCᵀ * XC`.  With
`includeReflections = true`, if the centred `X` has independent columns and
`polar_dec` answers `S` with a polar decomposition, and with
`includeReflections = false`, if the kernel of the centred `X` lies in a line
(rank at least `d - 1`) and `polar_svd` answers `S` as its contract says
(with the factor of its singular value decomposition, or with a polar
decomposition of determinant 1), the call returns scale 1, the identity
rotation and the zero translation, for both values of `includeScaling`. -/
theorem identity_case
    (polar_dec polar_svd :
      Matrix (Fin d) (Fin d) ℝ → Matrix (Fin d) (Fin d) ℝ × Matrix (Fin d) (Fin d) ℝ)
    (X : Matrix (Fin n) (Fin d) ℝ) (sc rf : Bool)
    (hX : ∃ i j, X i ≠ X j)
    (hdec : rf = true →
      (∀ v, rowwiseSub X (meanVec X) *ᵥ v = 0 → v = 0) ∧
      IsPolarDecomposition ((rowwiseSub X (meanVec X))ᵀ * rowwiseSub X (meanVec X))
        (polar_dec ((rowwiseSub X (meanVec X))ᵀ * rowwiseSub X (meanVec X))).1
        (polar_dec ((rowwiseSub X (meanVec X))ᵀ * rowwiseSub X (meanVec X))).2)
    (hsvd : rf = false →
      (∃ u : Fin d → ℝ, ∀ v, rowwiseSub X (meanVec X) *ᵥ v = 0 → ∃ c : ℝ, v = c • u) ∧
      (IsPolarSvd ((rowwiseSub X (meanVec X))ᵀ * rowwiseSub X (meanVec X))
          (polar_svd ((rowwiseSub X (meanVec X))ᵀ * rowwiseSub X (meanVec X))).1
          (polar_svd ((rowwiseSub X (meanVec X))ᵀ * rowwiseSub X (meanVec X))).2 ∨
        (IsPolarDecomposition ((rowwiseSub X (meanVec X))ᵀ * rowwiseSub X (meanVec X))
            (polar_svd ((rowwiseSub X (meanVec X))ᵀ * rowwiseSub X (meanVec X))).1
            (polar_svd ((rowwiseSub X (meanVec X))ᵀ * rowwiseSub X (meanVec X))).2 ∧
          (polar_svd ((rowwiseSub X (meanVec X))ᵀ * rowwiseSub X (meanVec X))).1.det
            = 1))) :
    procrustes Real.sqrt polar_dec polar_svd X X sc rf = .ok ⟨1, 1, 0⟩ := by
  have hn : 0 < n := by
    obtain ⟨i, -, -⟩ := hX
    exact Nat.lt_of_le_of_lt (Nat.zero_le _) i.isLt
  have hXC : centred X ≠ 0 := centred_ne_zero_of_rows_ne X hX
  have hscale : scaleOf Real.sqrt X X sc = 1 := by
    cases sc
    · rfl
    · exact scaleRatio_self _ hn hXC
  have hS : crossCovariance Real.sqrt X X sc = (centred X)ᵀ * centred X := by
    cases sc
    · rfl
    · show (mulScalar (centred X) (scaleRatio Real.sqrt (centred X) (centred X)))ᵀ * centred X
        = (centred X)ᵀ * centred X
      rw [scaleRatio_self _ hn hXC, mulScalar_one]
  have hF : polarFactor Real.sqrt polar_dec polar_svd X X sc rf = 1 := by
    unfold polarFactor
    rw [hS]
    cases rf
    · obtain ⟨⟨u, hu⟩, hpolar | ⟨hpd, hdet⟩⟩ := hsvd rfl
      · have hpd := hpolar.polar_of_posSemidef (posSemidef_gram (centred X))
        exact orthogonal_eq_one_of_polar_corank_one (posSemidef_gram (centred X))
          ⟨u, fun v hv => hu v (gram_mulVec_eq_zero _ v hv)⟩ hpd.2.1 hpolar.orthogonal.2
          hpd.2.2 hpd.1
      · exact orthogonal_eq_one_of_polar_corank_one (posSemidef_gram (centred X))
          ⟨u, fun v hv => hu v (gram_mulVec_eq_zero _ v hv)⟩ hpd.2.1 hdet hpd.2.2 hpd.1
    · obtain ⟨hrank, hpolar⟩ := hdec rfl
      exact orthogonal_eq_one_of_polar (posDef_gram _ hrank) hpolar.2.1 hpolar.2.2 hpolar.1
  rw [procrustes_eq polar_dec polar_svd X X sc rf hn (fun _ => hXC), hscale, hF]
  simp

theorem triangleX_rank (v : Fin 2 → ℝ)
    (h : rowwiseSub (triangleX ℝ) (meanVec (triangleX ℝ)) *ᵥ v = 0) : v = 0 := by
  have hc : rowwiseSub (triangleX ℝ) (meanVec (triangleX ℝ)) = !![-1, -1; 1, -1; 0, 2] :=
    centred_triangleX
  rw [hc] at h
  have h0 := congrFun h 0
  have h2 := congrFun h 2
  simp [Matrix.mulVec, Matrix.dotProduct, Fin.sum_univ_two] at h0 h2
  ext j
  fin_cases j
  · simp only [Fin.zero_eta, Pi.zero_apply]; linarith
  · simpa using h2

theorem gram_triangle :
    (rowwiseSub (triangleX ℝ) (meanVec (triangleX ℝ)))ᵀ
      * rowwiseSub (triangleX ℝ) (meanVec (triangleX ℝ)) = Matrix.diagonal ![2, 6] := by
  have hc : rowwiseSub (triangleX ℝ) (meanVec (triangleX ℝ)) = !![-1, -1; 1, -1; 0, 2] :=
    centred_triangleX
  rw [hc]
  ext i j
  simp only [Matrix.mul_apply, Matrix.transpose_apply, Fin.sum_univ_three]
  fin_cases i <;> fin_cases j <;> simp <;> norm_num

theorem meanVec_segmentX : meanVec (segmentX ℝ) = ![1, 0] := by
  ext j
  fin_cases j <;> norm_num [meanVec, segmentX, Fin.sum_univ_two]

theorem gram_segment :
    (centred (segmentX ℝ))ᵀ * centred (segmentX ℝ) = Matrix.diagonal ![2, 0] := by
  rw [centred, meanVec_segmentX]
  ext i j
  simp only [Matrix.mul_apply, Matrix.transpose_apply, Fin.sum_univ_two, rowwiseSub,
    Matrix.of_apply]
  fin_cases i <;> fin_cases j <;> norm_num [segmentX]

theorem segmentX_kernel (v : Fin 2 → ℝ)
    (h : rowwiseSub (segmentX ℝ) (meanVec (segmentX ℝ)) *ᵥ v = 0) :
    ∃ c : ℝ, v = c • ![0, 1] := by
  rw [meanVec_segmentX] at h
  have h1 := congrFun h 1
  simp [Matrix.mulVec, Matrix.dotProduct, Fin.sum_univ_two, rowwiseSub, segmentX] at h1
  refine ⟨v 1, ?_⟩
  ext j
  fin_cases j
  · rcases h1 with h2 | h2
    · norm_num at h2
    · simpa using h2
  · simp

/-- The identity with `diag(2, 0)` is an answer of `polar_svd` to
`S = diag(2, 0)`: take `U = V = 1` and `σ = (2, 0)`. -/
theorem segment_polarSvd :
    IsPolarSvd (Matrix.diagonal ![2, 0])
      (polarWith (1 : Matrix (Fin 2) (Fin 2) ℝ) (Matrix.diagonal ![2, 0])).1
      (polarWith (1 : Matrix (Fin 2) (Fin 2) ℝ) (Matrix.diagonal ![2, 0])).2 := by
  have h1 : Matrix.diagonal (1 : Fin 2 → ℝ) = 1 := Matrix.diagonal_one
  refine ⟨1, 1, ![2, 0], 1, by simp, by simp, ?_, by simp, Or.inl ⟨by simp, rfl⟩, ?_, ?_⟩
  · intro i
    fin_cases i <;> simp
  · simp [polarWith, h1]
  · simp [polarWith]

theorem identity_case_witness :
    procrustes Real.sqrt (polarWith 1) (polarWith 1) (triangleX ℝ) (triangleX ℝ) true true
      = .ok ⟨1, 1, 0⟩ ∧
    procrustes Real.sqrt (polarWith 1) (polarWith 1) (segmentX ℝ) (segmentX ℝ) true false
      = .ok ⟨1, 1, 0⟩ := by
  constructor
  · refine identity_case (polarWith 1) (polarWith 1) (triangleX ℝ) true true
      ⟨0, 1, fun h => ?_⟩ (fun _ => ⟨triangleX_rank, ?_, ?_, ?_⟩) (fun h => by cases h)
    · have h0 := congrFun h 0
      simp [triangleX] at h0
    · simp [polarWith]
    · simp [polarWith]
    · show ((1 : Matrix (Fin 2) (Fin 2) ℝ)ᵀ * _).PosSemidef
      rw [gram_triangle, Matrix.transpose_one, Matrix.one_mul]
      refine Matrix.PosSemidef.diagonal ?_
      intro i
      fin_cases i <;> simp
  · refine identity_case (polarWith 1) (polarWith 1) (segmentX ℝ) true false
      ⟨0, 1, fun h => ?_⟩ (fun h => by cases h)
      (fun _ => ⟨⟨![0, 1], segmentX_kernel⟩, Or.inl ?_⟩)
    · have h0 := congrFun h 0
      simp [segmentX] at h0
    · have hg : (rowwiseSub (segmentX ℝ) (meanVec (segmentX ℝ)))ᵀ
          * rowwiseSub (segmentX ℝ) (meanVec (segmentX ℝ)) = Matrix.diagonal ![2, 0] :=
        gram_segment
      rw [hg]
      exact segment_polarSvd

theorem reflectX_transpose : (reflectX ℝ)ᵀ = reflectX ℝ := by
  ext i j
  simp only [Matrix.transpose_apply]
  fin_cases i <;> fin_cases j <;> simp [reflectX]

theorem reflectX_mul_self : reflectX ℝ * reflectX ℝ = 1 := by
  ext i j
  simp only [Matrix.mul_apply, Fin.sum_univ_two]
  fin_cases i <;> fin_cases j <;> simp [reflectX]

theorem reflectX_mul_gram : reflectX ℝ * Matrix.diagonal ![2, 0] = Matrix.diagonal ![2, 0] := by
  ext i j
  simp only [Matrix.mul_apply, Fin.sum_univ_two]
  fin_cases i <;> fin_cases j <;> simp [reflectX]

theorem meanVec_segmentX3 : meanVec (segmentX3 ℝ) = ![1, 0, 0] := by
  ext j
  fin_cases j <;> norm_num [meanVec, segmentX3, Fin.sum_univ_two, -Matrix.vecCons_const]

theorem gram_segment3 :
    (centred (segmentX3 ℝ))ᵀ * centred (segmentX3 ℝ) = Matrix.diagonal ![2, 0, 0] := by
  rw [centred, meanVec_segmentX3]
  ext i j
  rw [Matrix.diagonal_apply]
  simp only [Matrix.mul_apply, Matrix.transpose_apply, Fin.sum_univ_two, rowwiseSub,
    Matrix.of_apply]
  fin_cases i <;> fin_cases j <;> norm_num [segmentX3, Fin.ext_iff, -Matrix.vecCons_const]

theorem halfTurnX_mul_self : halfTurnX ℝ * halfTurnX ℝ = 1 := by
  unfold halfTurnX
  have hf : (fun i : Fin 3 => (![1, -1, -1] : Fin 3 → ℝ) i * ![1, -1, -1] i) = 1 := by
    ext i
    fin_cases i <;> simp
  rw [Matrix.diagonal_mul_diagonal, hf]
  exact Matrix.diagonal_one

theorem halfTurnX_transpose : (halfTurnX ℝ)ᵀ = halfTurnX ℝ :=
  Matrix.diagonal_transpose _

theorem halfTurnX_det : (halfTurnX ℝ).det = 1 := by
  simp [halfTurnX, Matrix.det_diagonal, Fin.prod_univ_three]

theorem halfTurnX_mul_gram :
    halfTurnX ℝ * Matrix.diagonal ![2, 0, 0] = Matrix.diagonal ![2, 0, 0] := by
  unfold halfTurnX
  have hf : (fun i : Fin 3 => (![1, -1, -1] : Fin 3 → ℝ) i * ![2, 0, 0] i) = ![2, 0, 0] := by
    ext i
    fin_cases i <;> simp
  rw [Matrix.diagonal_mul_diagonal, hf]

theorem gram_mul_halfTurnX :
    Matrix.diagonal ![2, 0, 0] * halfTurnX ℝ = Matrix.diagonal ![2, 0, 0] := by
  unfold halfTurnX
  have hf : (fun i : Fin 3 => (![2, 0, 0] : Fin 3 → ℝ) i * ![1, -1, -1] i) = ![2, 0, 0] := by
    ext i
    fin_cases i <;> simp
  rw [Matrix.diagonal_mul_diagonal, hf]

/-- The half turn about the first axis is an answer of `polar_svd` to
`S = diag(2, 0, 0)`: take `U = 1`, `V` the half turn and `σ = (2, 0, 0)`;
then `U * Vᵀ` has determinant 1 and no sign is flipped. -/
theorem segment3_polarSvd :
    IsPolarSvd (Matrix.diagonal ![2, 0, 0])
      (polarWith (halfTurnX ℝ) (Matrix.diagonal ![2, 0, 0])).1
      (polarWith (halfTurnX ℝ) (Matrix.diagonal ![2, 0, 0])).2 := by
  have h1 : Matrix.diagonal (1 : Fin 3 → ℝ) = 1 := Matrix.diagonal_one
  refine ⟨1, halfTurnX ℝ, ![2, 0, 0], 1, by simp, ?_, ?_, ?_, Or.inl ⟨?_, rfl⟩, ?_, ?_⟩
  · rw [halfTurnX_transpose, halfTurnX_mul_self]
  · intro i
    fin_cases i <;> simp
  · rw [halfTurnX_transpose, Matrix.one_mul, gram_mul_halfTurnX]
  · rw [halfTurnX_transpose, Matrix.one_mul, halfTurnX_det]
  · show halfTurnX ℝ = 1 * Matrix.diagonal 1 * (halfTurnX ℝ)ᵀ
    rw [h1, halfTurnX_transpose, Matrix.one_mul, Matrix.one_mul]
  · show (halfTurnX ℝ)ᵀ * Matrix.diagonal ![2, 0, 0]
      = halfTurnX ℝ * Matrix.diagonal (1 * ![2, 0, 0]) * (halfTurnX ℝ)ᵀ
    rw [halfTurnX_transpose, one_mul, halfTurnX_mul_gram, gram_mul_halfTurnX]

theorem halfTurnX_ne_one : halfTurnX ℝ ≠ 1 := by
  intro h
  have h11 := congrFun (congrFun h 1) 1
  simp [halfTurnX] at h11
  norm_num at h11

/-- C4 (identity case) as stated fails when the centred `X` has too small a
rank for the orthogonal factor of `S = XCᵀ * XC` to be unique.  With
`includeReflections = true` and two distinct points of the first axis of the
plane, the reflection in that axis is a factor of `S = diag(2, 0)` that meets
the contract of `polar_dec`, and the call with `Y = X` returns the
reflection.  With `includeReflections = false` and two distinct points of
the first axis of space, the half turn about that axis is an answer of
`polar_svd` to `S = diag(2, 0, 0)`, and the call returns the half turn. -/
theorem identity_case_counterexample :
    ((∃ i j, segmentX ℝ i ≠ segmentX ℝ j) ∧
      IsPolarDecomposition ((centred (segmentX ℝ))ᵀ * centred (segmentX ℝ))
        (polarWith (reflectX ℝ) ((centred (segmentX ℝ))ᵀ * centred (segmentX ℝ))).1
        (polarWith (reflectX ℝ) ((centred (segmentX ℝ))ᵀ * centred (segmentX ℝ))).2 ∧
      procrustes Real.sqrt (polarWith (reflectX ℝ)) (polarWith (reflectX ℝ))
        (segmentX ℝ) (segmentX ℝ) false true = .ok ⟨1, reflectX ℝ, 0⟩ ∧
      reflectX ℝ ≠ 1) ∧
    ((∃ i j, segmentX3 ℝ i ≠ segmentX3 ℝ j) ∧
      IsPolarSvd ((centred (segmentX3 ℝ))ᵀ * centred (segmentX3 ℝ))
        (polarWith (halfTurnX ℝ) ((centred (segmentX3 ℝ))ᵀ * centred (segmentX3 ℝ))).1
        (polarWith (halfTurnX ℝ) ((centred (segmentX3 ℝ))ᵀ * centred (segmentX3 ℝ))).2 ∧
      IsPolarDecomposition ((centred (segmentX3 ℝ))ᵀ * centred (segmentX3 ℝ))
        (polarWith (halfTurnX ℝ) ((centred (segmentX3 ℝ))ᵀ * centred (segmentX3 ℝ))).1
        (polarWith (halfTurnX ℝ) ((centred (segmentX3 ℝ))ᵀ * centred (segmentX3 ℝ))).2 ∧
      (halfTurnX ℝ).det = 1 ∧
      procrustes Real.sqrt (polarWith (halfTurnX ℝ)) (polarWith (halfTurnX ℝ))
        (segmentX3 ℝ) (segmentX3 ℝ) false false = .ok ⟨1, halfTurnX ℝ, 0⟩ ∧
      halfTurnX ℝ ≠ 1) := by
  constructor
  · refine ⟨⟨0, 1, fun h => ?_⟩, ⟨?_, ?_, ?_⟩, ?_, fun h => ?_⟩
    · have h0 := congrFun h 0
      simp [segmentX] at h0
    · show _ = reflectX ℝ * ((reflectX ℝ)ᵀ * _)
      rw [reflectX_transpose, ← Matrix.mul_assoc, reflectX_mul_self, Matrix.one_mul]
    · show reflectX ℝ * (reflectX ℝ)ᵀ = 1
      rw [reflectX_transpose, reflectX_mul_self]
    · show ((reflectX ℝ)ᵀ * _).PosSemidef
      rw [gram_segment, reflectX_transpose, reflectX_mul_gram]
      refine Matrix.PosSemidef.diagonal ?_
      intro i
      fin_cases i <;> simp
    · rw [procrustes_false_eq Real.sqrt _ _ _ _ true (by decide)]
      simp only [polarWith, if_true, Matrix.transpose_transpose, one_smul, reflectX_transpose,
        meanVec_segmentX]
      congr 2
      ext j
      simp only [Matrix.mulVec, Matrix.dotProduct, Fin.sum_univ_two, Pi.sub_apply,
        Pi.zero_apply]
      fin_cases j <;> simp [reflectX]
    · have h11 := congrFun (congrFun h 1) 1
      simp [reflectX] at h11
      norm_num at h11
  · refine ⟨⟨0, 1, fun h => ?_⟩, ?_, ?_, halfTurnX_det, ?_, halfTurnX_ne_one⟩
    · have h0 := congrFun h 0
      simp [segmentX3, -Matrix.vecCons_const] at h0
    · rw [gram_segment3]
      exact segment3_polarSvd
    · rw [gram_segment3]
      exact segment3_polarSvd.polar_of_posSemidef
        (Matrix.PosSemidef.diagonal fun i => by fin_cases i <;> simp)
    · rw [procrustes_false_eq Real.sqrt _ _ _ _ false (by decide)]
      have hR : ((if false = true
            then polarWith (halfTurnX ℝ) ((centred (segmentX3 ℝ))ᵀ * centred (segmentX3 ℝ))
            else polarWith (halfTurnX ℝ) ((centred (segmentX3 ℝ))ᵀ * centred (segmentX3 ℝ))).1)ᵀ
          = halfTurnX ℝ := halfTurnX_transpose
      rw [hR, meanVec_segmentX3, halfTurnX_transpose]
      congr 2
      ext j
      simp only [one_smul, halfTurnX, Matrix.mulVec_diagonal, Pi.sub_apply, Pi.zero_apply]
      fin_cases j <;> simp

end Identity

/-! ## Least squares -/

section LeastSquares

variable {n d : ℕ}

theorem crossCovariance_eq_smul (X Y : Matrix (Fin n) (Fin d) ℝ) (sc : Bool) :
    crossCovariance Real.sqrt X Y sc = (scaleOf Real.sqrt X Y sc • centred X)ᵀ * centred Y := by
  cases sc
  · show (centred X)ᵀ * centred Y = ((1 : ℝ) • centred X)ᵀ * centred Y
    rw [one_smul]
  · show (mulScalar (centred X) (scaleRatio Real.sqrt (centred X) (centred Y)))ᵀ * centred Y
      = (scaleRatio Real.sqrt (centred X) (centred Y) • centred X)ᵀ * centred Y
    rw [mulScalar_eq_smul]

theorem meanVec_triangleMirror : meanVec (triangleMirror ℝ) = ![1, -1] := by
  ext j
  fin_cases j <;> norm_num [meanVec, triangleMirror, Fin.sum_univ_three]

theorem centred_triangleMirror :
    centred (triangleMirror ℝ) = !![-1, 1; 1, 1; 0, -2] := by
  rw [centred, meanVec_triangleMirror]
  ext i j
  fin_cases i <;> fin_cases j <;> simp [rowwiseSub, triangleMirror] <;> norm_num

theorem crossCov_mirror :
    (centred (triangleX ℝ))ᵀ * centred (triangleMirror ℝ) = Matrix.diagonal ![2, -6] := by
  rw [centred_triangleX, centred_triangleMirror]
  ext i j
  rw [Matrix.diagonal_apply]
  simp only [Matrix.mul_apply, Matrix.transpose_apply, Fin.sum_univ_three]
  fin_cases i <;> fin_cases j <;> simp <;> norm_num

theorem neg_one_eq_diagonal : (-1 : Matrix (Fin 2) (Fin 2) ℝ) = Matrix.diagonal ![-1, -1] := by
  ext i j
  rw [Matrix.diagonal_apply]
  fin_cases i <;> fin_cases j <;> simp

/-- The half turn `-1` with `T = diag(-2, 6)` is the answer of `polar_svd`
to `S = diag(2, -6)`: with `U = diag(1, -1)`, `V = 1` and `σ = (2, 6)` the
factor `U * Vᵀ` has determinant `-1`, and the sign of the smallest singular
direction is flipped. -/
theorem mirror_polarSvd :
    IsPolarSvd (Matrix.diagonal ![2, -6])
      (polarWith (-1 : Matrix (Fin 2) (Fin 2) ℝ) (Matrix.diagonal ![2, -6])).1
      (polarWith (-1 : Matrix (Fin 2) (Fin 2) ℝ) (Matrix.diagonal ![2, -6])).2 := by
  have hD : Function.update (1 : Fin 2 → ℝ) 0 (-1) = ![-1, 1] := by
    ext i
    fin_cases i <;> simp
  have hUU : (fun i : Fin 2 => (![1, -1] : Fin 2 → ℝ) i * ![1, -1] i) = 1 := by
    ext i
    fin_cases i <;> simp
  have hUσ : (fun i : Fin 2 => (![1, -1] : Fin 2 → ℝ) i * ![2, 6] i) = ![2, -6] := by
    ext i
    fin_cases i <;> simp
  have hUD : (fun i : Fin 2 => (![1, -1] : Fin 2 → ℝ) i * ![-1, 1] i) = ![-1, -1] := by
    ext i
    fin_cases i <;> simp
  have hDσ : (![-1, 1] : Fin 2 → ℝ) * ![2, 6] = ![-2, 6] := by
    ext i
    fin_cases i <;> simp
  have hneg : (fun i : Fin 2 => (![-1, -1] : Fin 2 → ℝ) i * ![2, -6] i) = ![-2, 6] := by
    ext i
    fin_cases i <;> simp
  refine ⟨Matrix.diagonal ![1, -1], 1, ![2, 6], Function.update 1 0 (-1), ?_, by simp, ?_, ?_,
    Or.inr ⟨?_, 0, ?_, rfl⟩, ?_, ?_⟩
  · rw [Matrix.diagonal_transpose, Matrix.diagonal_mul_diagonal, hUU]
    exact Matrix.diagonal_one
  · intro i
    fin_cases i <;> simp
  · rw [Matrix.transpose_one, Matrix.mul_one, Matrix.diagonal_mul_diagonal, hUσ]
  · rw [Matrix.transpose_one, Matrix.mul_one, Matrix.det_diagonal, Fin.prod_univ_two]
    simp
  · intro j
    fin_cases j <;> norm_num
  · show (-1 : Matrix (Fin 2) (Fin 2) ℝ) = _
    rw [hD, Matrix.transpose_one, Matrix.mul_one, Matrix.diagonal_mul_diagonal, hUD,
      neg_one_eq_diagonal]
  · show (-1 : Matrix (Fin 2) (Fin 2) ℝ)ᵀ * Matrix.diagonal ![2, -6] = _
    rw [hD, hDσ, Matrix.transpose_one, Matrix.mul_one, Matrix.one_mul, neg_one_eq_diagonal,
      Matrix.diagonal_transpose, Matrix.diagonal_mul_diagonal, hneg]

/-- C3 (least-squares optimality, amended): with at least one point and,
when scaling is requested, a centred source that is not zero, let `S` be the
cross-covariance of line 44.  If `includeReflections = true` and `polar_dec`
answers `S` with a polar decomposition, or `includeReflections = false` and
`polar_svd` answers `S` as its contract says (with the factor of its
singular value decomposition, the sign of a smallest singular direction
flipped when needed, or with a polar decomposition of determinant 1), the
call returns a result whose
rotation is admissible and, at the returned scale, minimises the sum of the
squared distances between the centred points,
`∑ ‖scale * R * (x_i - Xmean) - (y_i - Ymean)‖²`, among the admissible
orthogonal matrices. -/
theorem rotation_least_squares
    (polar_dec polar_svd :
      Matrix (Fin d) (Fin d) ℝ → Matrix (Fin d) (Fin d) ℝ × Matrix (Fin d) (Fin d) ℝ)
    (X Y : Matrix (Fin n) (Fin d) ℝ) (sc rf : Bool) (hn : 0 < n)
    (hX : sc = true → rowwiseSub X (meanVec X) ≠ 0)
    (hdec : rf = true → IsPolarDecomposition (crossCovariance Real.sqrt X Y sc)
      (polar_dec (crossCovariance Real.sqrt X Y sc)).1
      (polar_dec (crossCovariance Real.sqrt X Y sc)).2)
    (hsvd : rf = false →
      IsPolarSvd (crossCovariance Real.sqrt X Y sc)
        (polar_svd (crossCovariance Real.sqrt X Y sc)).1
        (polar_svd (crossCovariance Real.sqrt X Y sc)).2 ∨
      (IsPolarDecomposition (crossCovariance Real.sqrt X Y sc)
          (polar_svd (crossCovariance Real.sqrt X Y sc)).1
          (polar_svd (crossCovariance Real.sqrt X Y sc)).2 ∧
        (polar_svd (crossCovariance Real.sqrt X Y sc)).1.det = 1)) :
    ∃ r, procrustes Real.sqrt polar_dec polar_svd X Y sc rf = .ok r ∧
      r.R = ((if rf then polar_dec (crossCovariance Real.sqrt X Y sc)
              else polar_svd (crossCovariance Real.sqrt X Y sc)).1)ᵀ ∧
      r.R * r.Rᵀ = 1 ∧ (rf = false → r.R.det = 1) ∧
      ∀ Q : Matrix (Fin d) (Fin d) ℝ, Q * Qᵀ = 1 → (rf = false → Q.det = 1) →
        residual r.scale r.R 0 (rowwiseSub X (meanVec X)) (rowwiseSub Y (meanVec Y))
          ≤ residual r.scale Q 0 (rowwiseSub X (meanVec X)) (rowwiseSub Y (meanVec Y)) := by
  refine ⟨_, procrustes_eq polar_dec polar_svd X Y sc rf hn hX, rfl, ?_⟩
  show (polarFactor Real.sqrt polar_dec polar_svd X Y sc rf)ᵀ
      * ((polarFactor Real.sqrt polar_dec polar_svd X Y sc rf)ᵀ)ᵀ = 1 ∧
    (rf = false → ((polarFactor Real.sqrt polar_dec polar_svd X Y sc rf)ᵀ).det = 1) ∧
    ∀ Q : Matrix (Fin d) (Fin d) ℝ, Q * Qᵀ = 1 → (rf = false → Q.det = 1) →
      residual (scaleOf Real.sqrt X Y sc)
          (polarFactor Real.sqrt polar_dec polar_svd X Y sc rf)ᵀ 0 (centred X) (centred Y)
        ≤ residual (scaleOf Real.sqrt X Y sc) Q 0 (centred X) (centred Y)
  rw [transpose_transpose, det_transpose]
  have hS := crossCovariance_eq_smul X Y sc
  cases rf
  · have hcases : IsPolarSvd ((scaleOf Real.sqrt X Y sc • centred X)ᵀ * centred Y)
          (polarFactor Real.sqrt polar_dec polar_svd X Y sc false)
          (polarStretch Real.sqrt polar_dec polar_svd X Y sc false) ∨
        (IsPolarDecomposition ((scaleOf Real.sqrt X Y sc • centred X)ᵀ * centred Y)
            (polarFactor Real.sqrt polar_dec polar_svd X Y sc false)
            (polarStretch Real.sqrt polar_dec polar_svd X Y sc false) ∧
          (polarFactor Real.sqrt polar_dec polar_svd X Y sc false).det = 1) := by
      rw [← hS]
      exact hsvd rfl
    rcases hcases with hpolar | ⟨hpolar, hdet⟩
    · refine ⟨mul_eq_one_comm.1 hpolar.orthogonal.1, ?_, ?_⟩
      · intro _
        exact hpolar.orthogonal.2
      · intro Q hQ hQdet
        exact residual_polarSvd_le (scaleOf Real.sqrt X Y sc) _ _ Q (centred X) (centred Y)
          hpolar hQ (hQdet rfl)
    · refine ⟨mul_eq_one_comm.1 hpolar.2.1, ?_, ?_⟩
      · intro _
        exact hdet
      · intro Q hQ _
        exact residual_polar_le (scaleOf Real.sqrt X Y sc) _ _ Q (centred X) (centred Y)
          hpolar hQ
  · have hpolar : IsPolarDecomposition ((scaleOf Real.sqrt X Y sc • centred X)ᵀ * centred Y)
        (polarFactor Real.sqrt polar_dec polar_svd X Y sc true)
        (polarStretch Real.sqrt polar_dec polar_svd X Y sc true) := by
      rw [← hS]
      exact hdec rfl
    refine ⟨mul_eq_one_comm.1 hpolar.2.1, ?_, ?_⟩
    · intro h
      exact absurd h (by decide)
    · intro Q hQ _
      exact residual_polar_le (scaleOf Real.sqrt X Y sc) _ _ Q (centred X) (centred Y)
        hpolar hQ

theorem rotation_least_squares_witness :
    (∃ r, procrustes Real.sqrt (polarWith (-1)) (polarWith (-1))
        (triangleX ℝ) (triangleMirror ℝ) false false = .ok r ∧
      ∀ Q : Matrix (Fin 2) (Fin 2) ℝ, Q * Qᵀ = 1 → Q.det = 1 →
        residual r.scale r.R 0 (rowwiseSub (triangleX ℝ) (meanVec (triangleX ℝ)))
            (rowwiseSub (triangleMirror ℝ) (meanVec (triangleMirror ℝ)))
          ≤ residual r.scale Q 0 (rowwiseSub (triangleX ℝ) (meanVec (triangleX ℝ)))
            (rowwiseSub (triangleMirror ℝ) (meanVec (triangleMirror ℝ)))) ∧
    (∃ r, procrustes Real.sqrt (polarWith (rot270 ℝ)) (polarWith (rot270 ℝ))
        (triangleX ℝ) (triangleY ℝ) false true = .ok r ∧
      ∀ Q : Matrix (Fin 2) (Fin 2) ℝ, Q * Qᵀ = 1 →
        residual r.scale r.R 0 (rowwiseSub (triangleX ℝ) (meanVec (triangleX ℝ)))
            (rowwiseSub (triangleY ℝ) (meanVec (triangleY ℝ)))
          ≤ residual r.scale Q 0 (rowwiseSub (triangleX ℝ) (meanVec (triangleX ℝ)))
            (rowwiseSub (triangleY ℝ) (meanVec (triangleY ℝ)))) := by
  constructor
  · have hS : crossCovariance Real.sqrt (triangleX ℝ) (triangleMirror ℝ) false
        = Matrix.diagonal ![2, -6] := crossCov_mirror
    obtain ⟨r, hr, -, -, -, hmin⟩ := rotation_least_squares (polarWith (-1))
      (polarWith (-1)) (triangleX ℝ) (triangleMirror ℝ) false false (by decide)
      (fun h => by cases h) (fun h => by cases h)
      (fun _ => Or.inl (by rw [hS]; exact mirror_polarSvd))
    exact ⟨r, hr, fun Q hQ hd => hmin Q hQ (fun _ => hd)⟩
  · obtain ⟨r, hr, -, -, -, hmin⟩ := rotation_least_squares (polarWith (rot270 ℝ))
      (polarWith (rot270 ℝ)) (triangleX ℝ) (triangleY ℝ) false true (by decide)
      (fun h => by cases h) (fun _ => triangle_polar) (fun h => by cases h)
    exact ⟨r, hr, fun Q hQ => hmin Q hQ (fun h => by cases h)⟩

theorem meanVec_lineX : meanVec (lineX ℝ) = 0 := by
  ext j
  fin_cases j <;> norm_num [meanVec, lineX, Fin.sum_univ_three]

theorem meanVec_lineY : meanVec (lineY ℝ) = 0 := by
  ext j
  fin_cases j <;> norm_num [meanVec, lineY, Fin.sum_univ_three]

theorem rowwiseSub_zero {K : Type} [LinearOrderedField K] (M : Matrix (Fin n) (Fin d) K) :
    rowwiseSub M 0 = M := by
  ext i j
  simp [rowwiseSub]

theorem centred_lineX : centred (lineX ℝ) = lineX ℝ := by
  rw [centred, meanVec_lineX, rowwiseSub_zero]

theorem centred_lineY : centred (lineY ℝ) = lineY ℝ := by
  rw [centred, meanVec_lineY, rowwiseSub_zero]

theorem norm_lineX : norm Real.sqrt (lineX ℝ) = Real.sqrt 2 := by
  unfold norm
  congr 1
  norm_num [lineX, Fin.sum_univ_three, Fin.sum_univ_two]

theorem norm_lineY : norm Real.sqrt (lineY ℝ) = Real.sqrt 2 := by
  unfold norm
  congr 1
  norm_num [lineY, Fin.sum_univ_three, Fin.sum_univ_two]

theorem lineX_ne_zero : lineX ℝ ≠ 0 := by
  intro h
  have h00 := congrFun (congrFun h 0) 0
  simp [lineX] at h00

theorem scaleRatio_line : scaleRatio Real.sqrt (lineX ℝ) (lineY ℝ) = 1 := by
  have h2 : Real.sqrt 2 ≠ 0 := Real.sqrt_ne_zero'.2 (by norm_num)
  unfold scaleRatio
  rw [norm_lineX, norm_lineY]
  exact div_self (div_ne_zero h2 (by norm_num))

theorem crossCov_line : (lineX ℝ)ᵀ * lineY ℝ = Matrix.diagonal ![-1, 0] := by
  ext i j
  simp only [Matrix.mul_apply, Matrix.transpose_apply, Fin.sum_univ_three]
  fin_cases i <;> fin_cases j <;> simp [lineX, lineY, -Matrix.vecCons_const]

theorem crossCovariance_line :
    crossCovariance Real.sqrt (lineX ℝ) (lineY ℝ) true = Matrix.diagonal ![-1, 0] := by
  show (mulScalar (centred (lineX ℝ)) (scaleRatio Real.sqrt (centred (lineX ℝ))
    (centred (lineY ℝ))))ᵀ * centred (lineY ℝ) = _
  rw [centred_lineX, centred_lineY, scaleRatio_line, mulScalar_one, crossCov_line]

theorem procrustes_line :
    procrustes Real.sqrt (polarWith (-1)) (polarWith (-1)) (lineX ℝ) (lineY ℝ) true false
      = .ok ⟨1, -1, 0⟩ := by
  have hX : centred (lineX ℝ) ≠ 0 := by rw [centred_lineX]; exact lineX_ne_zero
  rw [procrustes_eq _ _ _ _ true false (by decide) (fun _ => hX)]
  have hs : scaleOf Real.sqrt (lineX ℝ) (lineY ℝ) true = 1 := by
    show scaleRatio Real.sqrt (centred (lineX ℝ)) (centred (lineY ℝ)) = 1
    rw [centred_lineX, centred_lineY, scaleRatio_line]
  have hF : polarFactor Real.sqrt (polarWith (-1)) (polarWith (-1)) (lineX ℝ) (lineY ℝ)
      true false = -1 := rfl
  rw [hs, hF, meanVec_lineX, meanVec_lineY]
  simp

theorem residual_line_returned : residual (1 : ℝ) (-1) 0 (lineX ℝ) (lineY ℝ) = 2 := by
  simp only [residual, Fin.sum_univ_three, Fin.sum_univ_two, Matrix.mulVec, Matrix.dotProduct,
    Matrix.smul_apply, Matrix.neg_apply, Matrix.one_apply, Pi.add_apply, Pi.sub_apply,
    Pi.zero_apply]
  norm_num [lineX, lineY, -Matrix.vecCons_const]

theorem residual_line_half : residual (1 / 2 : ℝ) (-1) 0 (lineX ℝ) (lineY ℝ) = 3 / 2 := by
  simp only [residual, Fin.sum_univ_three, Fin.sum_univ_two, Matrix.mulVec, Matrix.dotProduct,
    Matrix.smul_apply, Matrix.neg_apply, Matrix.one_apply, Pi.add_apply, Pi.sub_apply,
    Pi.zero_apply]
  norm_num [lineX, lineY, -Matrix.vecCons_const]

/-- The half turn `-1` with `T = diag(1, 0)` is an answer of `polar_svd` to
`S = diag(-1, 0)`: with `U = diag(-1, 1)`, `V = 1` and `σ = (1, 0)` the
factor `U * Vᵀ` has determinant `-1`, and the sign of the direction of the
singular value 0 is flipped. -/
theorem line_polarSvd :
    IsPolarSvd (Matrix.diagonal ![-1, 0])
      (polarWith (-1 : Matrix (Fin 2) (Fin 2) ℝ) (Matrix.diagonal ![-1, 0])).1
      (polarWith (-1 : Matrix (Fin 2) (Fin 2) ℝ) (Matrix.diagonal ![-1, 0])).2 := by
  have hD : Function.update (1 : Fin 2 → ℝ) 1 (-1) = ![1, -1] := by
    ext i
    fin_cases i <;> simp
  have hUU : (fun i : Fin 2 => (![-1, 1] : Fin 2 → ℝ) i * ![-1, 1] i) = 1 := by
    ext i
    fin_cases i <;> simp
  have hUσ : (fun i : Fin 2 => (![-1, 1] : Fin 2 → ℝ) i * ![1, 0] i) = ![-1, 0] := by
    ext i
    fin_cases i <;> simp
  have hUD : (fun i : Fin 2 => (![-1, 1] : Fin 2 → ℝ) i * ![1, -1] i) = ![-1, -1] := by
    ext i
    fin_cases i <;> simp
  have hDσ : (![1, -1] : Fin 2 → ℝ) * ![1, 0] = ![1, 0] := by
    ext i
    fin_cases i <;> simp
  have hneg : (fun i : Fin 2 => (![-1, -1] : Fin 2 → ℝ) i * ![-1, 0] i) = ![1, 0] := by
    ext i
    fin_cases i <;> simp
  refine ⟨Matrix.diagonal ![-1, 1], 1, ![1, 0], Function.update 1 1 (-1), ?_, by simp, ?_, ?_,
    Or.inr ⟨?_, 1, ?_, rfl⟩, ?_, ?_⟩
  · rw [Matrix.diagonal_transpose, Matrix.diagonal_mul_diagonal, hUU]
    exact Matrix.diagonal_one
  · intro i
    fin_cases i <;> simp
  · rw [Matrix.transpose_one, Matrix.mul_one, Matrix.diagonal_mul_diagonal, hUσ]
  · rw [Matrix.transpose_one, Matrix.mul_one, Matrix.det_diagonal, Fin.prod_univ_two]
    simp
  · intro j
    fin_cases j <;> norm_num
  · show (-1 : Matrix (Fin 2) (Fin 2) ℝ) = _
    rw [hD, Matrix.transpose_one, Matrix.mul_one, Matrix.diagonal_mul_diagonal, hUD,
      neg_one_eq_diagonal]
  · show (-1 : Matrix (Fin 2) (Fin 2) ℝ)ᵀ * Matrix.diagonal ![-1, 0] = _
    rw [hD, hDσ, Matrix.transpose_one, Matrix.mul_one, Matrix.one_mul, neg_one_eq_diagonal,
      Matrix.diagonal_transpose, Matrix.diagonal_mul_diagonal, hneg]

/-- C3 (least-squares optimality) as stated fails on `lineX`, `lineY` with
scaling and without reflections: `polar_svd` answers `S = diag(-1, 0)` with
the half turn `-1` and `T = diag(1, 0)`, as its contract says (and this is a
polar decomposition of `S`); the call returns `(1, -1, 0)` with objective 2,
and the admissible triple `(1/2, -1, 0)` has objective 3/2. -/
theorem least_squares_counterexample :
    IsPolarSvd (crossCovariance Real.sqrt (lineX ℝ) (lineY ℝ) true)
      (polarWith (-1) (crossCovariance Real.sqrt (lineX ℝ) (lineY ℝ) true)).1
      (polarWith (-1) (crossCovariance Real.sqrt (lineX ℝ) (lineY ℝ) true)).2 ∧
    IsPolarDecomposition (crossCovariance Real.sqrt (lineX ℝ) (lineY ℝ) true)
      (polarWith (-1) (crossCovariance Real.sqrt (lineX ℝ) (lineY ℝ) true)).1
      (polarWith (-1) (crossCovariance Real.sqrt (lineX ℝ) (lineY ℝ) true)).2 ∧
    ∃ r, procrustes Real.sqrt (polarWith (-1)) (polarWith (-1)) (lineX ℝ) (lineY ℝ) true false
        = .ok r ∧
      ∃ (s : ℝ) (Q : Matrix (Fin 2) (Fin 2) ℝ) (t : Fin 2 → ℝ),
        0 ≤ s ∧ Q * Qᵀ = 1 ∧ Q.det = 1 ∧
        residual s Q t (lineX ℝ) (lineY ℝ) < residual r.scale r.R r.t (lineX ℝ) (lineY ℝ) := by
  refine ⟨?_, ⟨?_, ?_, ?_⟩, _, procrustes_line, 1 / 2, -1, 0, by norm_num, ?_, ?_, ?_⟩
  · rw [crossCovariance_line]
    exact line_polarSvd
  · show _ = (-1 : Matrix (Fin 2) (Fin 2) ℝ) * ((-1 : Matrix (Fin 2) (Fin 2) ℝ)ᵀ * _)
    simp
  · show (-1 : Matrix (Fin 2) (Fin 2) ℝ) * (-1 : Matrix (Fin 2) (Fin 2) ℝ)ᵀ = 1
    simp
  · show ((-1 : Matrix (Fin 2) (Fin 2) ℝ)ᵀ * _).PosSemidef
    rw [crossCovariance_line]
    have h : (-1 : Matrix (Fin 2) (Fin 2) ℝ)ᵀ * Matrix.diagonal ![-1, 0]
        = Matrix.diagonal ![1, 0] := by
      ext i j
      fin_cases i <;> fin_cases j <;> simp
    rw [h]
    refine Matrix.PosSemidef.diagonal ?_
    intro i
    fin_cases i <;> simp
  · simp
  · simp [Matrix.det_fin_two]
  · show residual (1 / 2 : ℝ) (-1) 0 (lineX ℝ) (lineY ℝ)
      < residual (1 : ℝ) (-1) 0 (lineX ℝ) (lineY ℝ)
    rw [residual_line_returned, residual_line_half]
    norm_num

end LeastSquares

end Procrustes
